import Mathlib

/-!
The aside block extension of golb (`aside.go`).

A shallow embedding of `AsideBlockParser` (Open / Continue / Close and the
grammar flags) and `AsideBlockRenderer.render`. What they call outside the
repository is transcribed from the libraries the file imports: from the Go
standard library `unicode/utf8` (`DecodeRune`, `DecodeLastRune`), `unicode`
(`IsSpace`), `bytes` (`Equal`, `TrimSpace` and the functions under it) and
`html/template` (the escaper of HTML text, and parsing and execution for
templates of text and dot actions); from goldmark `text.Reader` (`PeekLine`,
`Advance`, for a reader without padding), the flags of `parser.State`,
`ast.WalkStatus` and the writer. The engine that drives the parser line by
line and walks the tree is not part of the repository either. It is modelled
after the engine the specification describes, which is goldmark's block
parser loop (`parseBlocks`, `openBlocks`, `closeBlocks`) and its tree walk,
with the aside parser and the paragraph rule of the base grammar as the
block parsers.

Conventions
* a Go `[]byte` / `string` is a `List Nat`, one number per byte (every
  theorem is stated for all such lists, hence for all lists of bytes);
* a rune is a natural number;
* a slice expression that can go out of range is a value of `Except Panic`.
-/

namespace Golb

/-- The bytes of an ASCII string literal of the source. -/
def ascii (s : String) : List Nat := s.toList.map Char.toNat

/-! ## unicode/utf8 -/

namespace utf8

/-- Value `utf8.RuneError`, the replacement character U+FFFD. -/
def RuneError : Nat := 0xFFFD
/-- Value `utf8.RuneSelf`: bytes below it are single-byte runes. -/
def RuneSelf : Nat := 0x80
/-- Value `utf8.UTFMax`: the longest encoding of a rune, in bytes. -/
def UTFMax : Nat := 4

def locb : Nat := 0x80
def hicb : Nat := 0xBF
def maskx : Nat := 0x3F
def mask2 : Nat := 0x1F
def mask3 : Nat := 0x0F
def mask4 : Nat := 0x07

def xx : Nat := 0xF1
def as_ : Nat := 0xF0
def s1 : Nat := 0x02
def s2 : Nat := 0x13
def s3 : Nat := 0x03
def s4 : Nat := 0x23
def s5 : Nat := 0x34
def s6 : Nat := 0x04
def s7 : Nat := 0x44

/-- Table `first`: information about the first byte of an encoding. -/
def first (b : Nat) : Nat :=
  if b < 0x80 then as_
  else if b < 0xC2 then xx
  else if b < 0xE0 then s1
  else if b = 0xE0 then s2
  else if b < 0xED then s3
  else if b = 0xED then s4
  else if b < 0xF0 then s3
  else if b = 0xF0 then s5
  else if b < 0xF4 then s6
  else if b = 0xF4 then s7
  else xx

/-- Table `acceptRanges`: lowest and highest admissible second byte. -/
def acceptRanges (i : Nat) : Nat × Nat :=
  match i with
  | 0 => (locb, hicb)
  | 1 => (0xA0, hicb)
  | 2 => (locb, 0x9F)
  | 3 => (0x90, hicb)
  | 4 => (locb, 0x8F)
  | _ => (0, 0)

/-- The rune of a valid 2-byte encoding. -/
def rune2 (p0 b1 : Nat) : Nat := ((p0 &&& mask2) <<< 6) ||| (b1 &&& maskx)

/-- The rune of a valid 3-byte encoding. -/
def rune3 (p0 b1 b2 : Nat) : Nat :=
  ((p0 &&& mask3) <<< 12) ||| ((b1 &&& maskx) <<< 6) ||| (b2 &&& maskx)

/-- The rune of a valid 4-byte encoding. -/
def rune4 (p0 b1 b2 b3 : Nat) : Nat :=
  ((p0 &&& mask4) <<< 18) ||| ((b1 &&& maskx) <<< 12) ||| ((b2 &&& maskx) <<< 6) ||| (b3 &&& maskx)

/-- Function `utf8.DecodeRune`: the first rune of `p` and its width in bytes;
`(RuneError, 0)` on empty input and `(RuneError, 1)` on an invalid encoding. -/
def DecodeRune (p : List Nat) : Nat × Nat :=
  match p with
  | [] => (RuneError, 0)
  | p0 :: t =>
    let x := first p0
    if x ≥ as_ then
      -- mask := rune(x) << 31 >> 31 is 0 for `as` and all ones for `xx`
      (if x % 2 = 0 then p0 else RuneError, 1)
    else
      let sz := x &&& 7
      let accept := acceptRanges (x >>> 4)
      if t.length + 1 < sz then (RuneError, 1)
      else
        match t with
        | [] => (RuneError, 1)
        | b1 :: t1 =>
          if b1 < accept.1 ∨ accept.2 < b1 then (RuneError, 1)
          else if sz ≤ 2 then (rune2 p0 b1, 2)
          else
            match t1 with
            | [] => (RuneError, 1)
            | b2 :: t2 =>
              if b2 < locb ∨ hicb < b2 then (RuneError, 1)
              else if sz ≤ 3 then (rune3 p0 b1 b2, 3)
              else
                match t2 with
                | [] => (RuneError, 1)
                | b3 :: _ =>
                  if b3 < locb ∨ hicb < b3 then (RuneError, 1)
                  else (rune4 p0 b1 b2 b3, 4)

/-- Function `utf8.RuneStart`: the byte is not a continuation byte. -/
def RuneStart (b : Nat) : Bool := (b &&& 0xC0) != 0x80

/-- The backward scan of `DecodeLastRune`
(`for start--; start >= lim; start-- { if RuneStart(p[start]) { break } }`).
The argument and the result are `start + 1`, so that the value `-1` of the
Go variable is `0` here. -/
def scanBack (p : List Nat) (lim : Nat) : Nat → Nat
  | 0 => 0
  | k + 1 =>
    if lim ≤ k then
      if RuneStart (p.getD k 0) then k + 1 else scanBack p lim k
    else k + 1

/-- Function `utf8.DecodeLastRune`: the last rune of `p` and its width. -/
def DecodeLastRune (p : List Nat) : Nat × Nat :=
  let end_ := p.length
  if end_ = 0 then (RuneError, 0)
  else
    let start := end_ - 1
    let r := p.getD start 0
    if r < RuneSelf then (r, 1)
    else
      -- lim := end - UTFMax, clamped at 0
      let lim := end_ - UTFMax
      -- start-- and the scan; `if start < 0 { start = 0 }` is the truncated `- 1`
      let start := scanBack p lim start - 1
      let (r, size) := DecodeRune ((p.take end_).drop start)
      if start + size ≠ end_ then (RuneError, 1) else (r, size)

end utf8

/-! ## unicode -/

namespace unicode

/-- Function `unicode.IsSpace`: the Latin-1 switch, then the `White_Space`
range table. -/
def IsSpace (r : Nat) : Bool :=
  if r ≤ 0xFF then
    r == 0x09 || r == 0x0A || r == 0x0B || r == 0x0C || r == 0x0D || r == 0x20
      || r == 0x85 || r == 0xA0
  else
    r == 0x1680 || (0x2000 ≤ r && r ≤ 0x200A) || (0x2028 ≤ r && r ≤ 0x2029)
      || r == 0x202F || r == 0x205F || r == 0x3000

end unicode

/-! ## bytes -/

namespace bytes

/-- Function `bytes.Equal`. -/
def Equal (a b : List Nat) : Bool := a == b

/-- Table `asciiSpace`. -/
def asciiSpace (c : Nat) : Bool :=
  c == 0x09 || c == 0x0A || c == 0x0B || c == 0x0C || c == 0x0D || c == 0x20

/-- The loop of `indexFunc`, from index `start`; `none` is the result `-1`.
The first argument bounds the number of iterations (each one advances
`start` by at least one byte). -/
def indexFuncLoop (s : List Nat) (f : Nat → Bool) (truth : Bool) : Nat → Nat → Option Nat
  | 0, _ => none
  | fuel + 1, start =>
    if start < s.length then
      let c := s.getD start 0
      let (r, wid) := if c ≥ utf8.RuneSelf then utf8.DecodeRune (s.drop start) else (c, 1)
      if f r == truth then some start
      else indexFuncLoop s f truth fuel (start + wid)
    else none

/-- Function `bytes.indexFunc`: index of the first rune `r` with
`f r = truth`. -/
def indexFunc (s : List Nat) (f : Nat → Bool) (truth : Bool) : Option Nat :=
  indexFuncLoop s f truth s.length 0

/-- The loop of `lastIndexFunc`, from index `i` downwards. -/
def lastIndexFuncLoop (s : List Nat) (f : Nat → Bool) (truth : Bool) : Nat → Nat → Option Nat
  | 0, _ => none
  | fuel + 1, i =>
    if 0 < i then
      let c := s.getD (i - 1) 0
      let (r, size) := if c ≥ utf8.RuneSelf then utf8.DecodeLastRune (s.take i) else (c, 1)
      let i := i - size
      if f r == truth then some i
      else lastIndexFuncLoop s f truth fuel i
    else none

/-- Function `bytes.lastIndexFunc`: index of the last rune `r` with
`f r = truth`. -/
def lastIndexFunc (s : List Nat) (f : Nat → Bool) (truth : Bool) : Option Nat :=
  lastIndexFuncLoop s f truth s.length s.length

/-- Function `bytes.TrimLeftFunc`. -/
def TrimLeftFunc (s : List Nat) (f : Nat → Bool) : List Nat :=
  match indexFunc s f false with
  | none => []
  | some i => s.drop i

/-- Function `bytes.TrimRightFunc`. -/
def TrimRightFunc (s : List Nat) (f : Nat → Bool) : List Nat :=
  match lastIndexFunc s f false with
  | some i =>
    if s.getD i 0 ≥ utf8.RuneSelf then s.take (i + (utf8.DecodeRune (s.drop i)).2)
    else s.take (i + 1)
  | none => s.take 0

/-- Function `bytes.TrimFunc`. -/
def TrimFunc (s : List Nat) (f : Nat → Bool) : List Nat :=
  TrimRightFunc (TrimLeftFunc s f) f

/-- The second loop of `TrimSpace` on `t = s[start:]`; the counter is
`stop - start`. -/
def trimSpaceStop (t : List Nat) : Nat → List Nat
  | 0 => []
  | k + 1 =>
    let c := t.getD k 0
    if c ≥ utf8.RuneSelf then TrimFunc (t.take (k + 1)) unicode.IsSpace
    else if asciiSpace c then trimSpaceStop t k
    else t.take (k + 1)

/-- Function `bytes.TrimSpace`: the ASCII fast path over the leading bytes,
then `trimSpaceStop` over the trailing ones; the first non-ASCII byte met
hands the rest to `TrimFunc` with `unicode.IsSpace`. -/
def TrimSpace : List Nat → List Nat
  | [] => []
  | c :: rest =>
    if c ≥ utf8.RuneSelf then TrimFunc (c :: rest) unicode.IsSpace
    else if asciiSpace c then TrimSpace rest
    else trimSpaceStop (c :: rest) (c :: rest).length

end bytes

/-! ## White space -/

/-- The loop of `isWhiteSpace`; the first argument bounds the number of
runes. -/
def whiteSpaceLoop : Nat → List Nat → Bool
  | _, [] => true
  | 0, _ :: _ => false
  | fuel + 1, c :: rest =>
    unicode.IsSpace (utf8.DecodeRune (c :: rest)).1
      && whiteSpaceLoop fuel ((c :: rest).drop (utf8.DecodeRune (c :: rest)).2)

/-- The bytes consist of white space only: decoded rune after rune from the
front, every rune is one of `unicode.IsSpace`. -/
def isWhiteSpace (s : List Nat) : Bool := whiteSpaceLoop s.length s

/-- The bytes are the complete encoding of one white-space rune. -/
def IsSpaceRune (c : List Nat) : Prop :=
  (utf8.DecodeRune c).2 = c.length ∧ unicode.IsSpace (utf8.DecodeRune c).1 = true

/-- A concatenation of encodings of white-space runes. -/
inductive WhiteSpace : List Nat → Prop
  | nil : WhiteSpace []
  | cons (c rest : List Nat) : IsSpaceRune c → WhiteSpace rest → WhiteSpace (c ++ rest)

/-- The rune and width `lastIndexFunc` reads at the end of `s[:i]` (the body
of its loop, named for the proofs). -/
def lastRune (s : List Nat) (i : Nat) : Nat × Nat :=
  if s.getD (i - 1) 0 ≥ utf8.RuneSelf then utf8.DecodeLastRune (s.take i) else (s.getD (i - 1) 0, 1)

/-! ## goldmark: `text.Reader` and `parser.State` -/

/-- A `text.Reader` without padding: the source and the offset of the first
unread byte. -/
structure Reader where
  source : List Nat
  pos : Nat
  deriving DecidableEq, Repr

/-- The bytes of `s` up to and including the first newline. -/
def takeLine : List Nat → List Nat
  | [] => []
  | c :: rest => if c = 0x0A then [c] else c :: takeLine rest

/-- Method `Reader.PeekLine`: the unread part of the current line, its
newline included; empty at the end of the source. -/
def Reader.PeekLine (r : Reader) : List Nat := takeLine (r.source.drop r.pos)

/-- Method `Reader.Advance`: move the position `n` bytes on, never past the
end of the source. -/
def Reader.Advance (r : Reader) (n : Nat) : Reader :=
  { r with pos := min (r.pos + n) r.source.length }

/-- Method `Reader.AdvanceLine`: move to the start of the next line. -/
def Reader.AdvanceLine (r : Reader) : Reader := r.Advance r.PeekLine.length

/-- Type `parser.State`, a set of flags. -/
abbrev State := Nat

namespace parser
def None : State := 1
def Continue : State := 2
def Close : State := 4
def HasChildren : State := 8
def NoChildren : State := 16
def RequireParagraph : State := 32
end parser

/-! ## Slices -/

/-- A run-time panic of the Go program. -/
inductive Panic where
  | sliceBoundsOutOfRange
  deriving DecidableEq, Repr

deriving instance DecidableEq for Except

/-- Slice expression `s[:hi]`; out of range when `hi` exceeds the length. -/
def sliceTo (s : List Nat) (hi : Nat) : Except Panic (List Nat) :=
  if hi ≤ s.length then .ok (s.take hi) else .error .sliceBoundsOutOfRange

/-- Slice expression `s[lo:]`; out of range when `lo` exceeds the length. -/
def sliceFrom (s : List Nat) (lo : Nat) : Except Panic (List Nat) :=
  if lo ≤ s.length then .ok (s.drop lo) else .error .sliceBoundsOutOfRange

/-! ## aside.go: the node and the block parser -/

/-- Type `AsideBlockNode`: the block's title (the embedded `ast.BaseBlock`
holds the children, which the engine appends). -/
structure AsideBlockNode where
  Title : List Nat
  deriving DecidableEq, Repr

namespace AsideBlockParser

/-- Method `Trigger`. -/
def Trigger : List Nat := [0x3A]

/-- The marker `[]byte(":::")`. -/
def marker : List Nat := ascii ":::"

/-- Method `Open`: the node (or `none` for `nil`), the state, and the reader
afterwards. -/
def Open (reader : Reader) : Except Panic (Option AsideBlockNode × State × Reader) :=
  let line := reader.PeekLine
  if line.length < 3 then
    .ok (none, parser.NoChildren, reader)
  else do
    let head ← sliceTo line 3
    if !bytes.Equal head marker then
      .ok (none, parser.NoChildren, reader)
    else
      let reader := reader.Advance line.length
      let rest ← sliceFrom line 3
      .ok (some { Title := bytes.TrimSpace rest }, parser.HasChildren, reader)

/-- Method `Continue`: the state and the reader afterwards. The slice
`line[:3]` is evaluated only when `len(line) >= 3` holds. -/
def Continue (_node : AsideBlockNode) (reader : Reader) : Except Panic (State × Reader) :=
  let line := reader.PeekLine
  if line.length ≥ 3 then do
    let head ← sliceTo line 3
    if bytes.Equal head marker then
      let reader := reader.Advance line.length
      .ok (parser.Close, reader)
    else
      .ok (parser.Continue ||| parser.HasChildren, reader)
  else
    .ok (parser.Continue ||| parser.HasChildren, reader)

/-- Method `Close`: a no-op. -/
def Close (node : AsideBlockNode) (reader : Reader) : AsideBlockNode × Reader :=
  (node, reader)

/-- Method `CanInterruptParagraph`. -/
def CanInterruptParagraph : Bool := false

/-- Method `CanAcceptIndentedLine`. -/
def CanAcceptIndentedLine : Bool := false

end AsideBlockParser

/-! ## Errors and the writer -/

/-- A Go `error` value. -/
inductive Error where
  /-- an error of the underlying writer -/
  | write
  /-- an error of the template parser, with its message -/
  | template (msg : String)
  /-- the value of `fmt.Errorf(msg + ": %w", cause)` -/
  | wrap (msg : String) (cause : Error)
  deriving DecidableEq, Repr

/-- A `util.BufWriter`: the bytes it has accepted, and how many more it
accepts before it fails (`none`: it never fails). -/
structure BufWriter where
  out : List Nat
  room : Option Nat
  deriving DecidableEq, Repr

/-- Method `Write`: all of `p` is accepted while there is room; otherwise the
bytes that fit are, and the error is returned. -/
def BufWriter.Write (w : BufWriter) (p : List Nat) : BufWriter × Option Error :=
  match w.room with
  | none => ({ w with out := w.out ++ p }, none)
  | some n =>
    if p.length ≤ n then ({ out := w.out ++ p, room := some (n - p.length) }, none)
    else ({ out := w.out ++ p.take n, room := some 0 }, some Error.write)

/-- Method `WriteString`. -/
def BufWriter.WriteString (w : BufWriter) (s : List Nat) : BufWriter × Option Error :=
  w.Write s

/-! ## html/template -/

namespace template

/-- Table `htmlReplacementTable`, indexed by rune; the empty string where the
table has no entry. -/
def htmlReplacementTable (r : Nat) : List Nat :=
  match r with
  | 0 => [0xEF, 0xBF, 0xBD]
  | 0x22 => ascii "&#34;"
  | 0x26 => ascii "&amp;"
  | 0x27 => ascii "&#39;"
  | 0x2B => ascii "&#43;"
  | 0x3C => ascii "&lt;"
  | 0x3E => ascii "&gt;"
  | _ => []

/-- Length of `htmlReplacementTable`: its last index is the rune `>`. -/
def htmlReplacementTableLen : Nat := 0x3E + 1

/-- The loop of `htmlReplacer` with `badRunes = true`: rune after rune, the
replacement from the table or the bytes of the rune as they are. The first
argument bounds the number of runes. -/
def htmlReplacerLoop : Nat → List Nat → List Nat
  | _, [] => []
  | 0, _ :: _ => []
  | fuel + 1, c :: rest =>
    let r := (utf8.DecodeRune (c :: rest)).1
    let w := (utf8.DecodeRune (c :: rest)).2
    if r < htmlReplacementTableLen ∧ htmlReplacementTable r ≠ [] then
      htmlReplacementTable r ++ htmlReplacerLoop fuel ((c :: rest).drop w)
    else
      (c :: rest).take w ++ htmlReplacerLoop fuel ((c :: rest).drop w)

/-- Function `htmlReplacer(s, htmlReplacementTable, true)`. -/
def htmlReplacer (s : List Nat) : List Nat := htmlReplacerLoop s.length s

/-- Function `htmlEscaper` on one plain string: the escaper of an action in
HTML text. -/
def htmlEscaper (s : List Nat) : List Nat := htmlReplacer s

/-- What the escaper emits for one byte of ASCII text or of a longer
encoding: the table entry of the byte, or the byte itself. -/
def escapeByte (b : Nat) : List Nat :=
  if htmlReplacementTable b = [] then [b] else htmlReplacementTable b

/-- The character references of `htmlReplacementTable`. -/
def charRefs : List (List Nat) :=
  [ascii "&#34;", ascii "&amp;", ascii "&#39;", ascii "&#43;", ascii "&lt;", ascii "&gt;"]

/-- A node of a parsed template: literal text, or the action that prints
the dot. -/
inductive Node where
  | text (bs : List Nat)
  | dot
  deriving DecidableEq, Repr

/-- A parsed template. -/
abbrev Template := List Node

/-- Split at the first occurrence of the two bytes `a b`. -/
def breakOn (a b : Nat) : List Nat → Option (List Nat × List Nat)
  | [] => none
  | [_] => none
  | x :: y :: rest =>
    if x = a ∧ y = b then some ([], rest)
    else (breakOn a b (y :: rest)).map (fun pq => (x :: pq.1, pq.2))

/-- Drop the spaces around the body of an action. -/
def trimSpaces (s : List Nat) : List Nat :=
  ((s.dropWhile (· == 0x20)).reverse.dropWhile (· == 0x20)).reverse

/-- The loop of `Parse`; the first argument bounds the number of actions. -/
def parseLoop : Nat → List Nat → Except Error Template
  | 0, src => .ok (if src = [] then [] else [Node.text src])
  | fuel + 1, src =>
    match breakOn 0x7B 0x7B src with
    | none => .ok (if src = [] then [] else [Node.text src])
    | some (pre, post) =>
      match breakOn 0x7D 0x7D post with
      | none => .error (Error.template "unclosed action")
      | some (body, rest) =>
        if trimSpaces body = [0x2E] then
          (parseLoop fuel rest).map
            (fun ns => (if pre = [] then [] else [Node.text pre]) ++ Node.dot :: ns)
        else .error (Error.template "unexpected action")

/-- Method `Parse`, for templates of literal text and actions that print the
dot: text up to the left delimiter is a text node, the action between the
delimiters must be the dot, an unclosed action is an error. -/
def Parse (src : List Nat) : Except Error Template := parseLoop src.length src

/-- Method `Execute` in HTML text context: the text nodes are written as
they are, the dot through `htmlEscaper`; the first write that fails ends the
execution with the writer's error. -/
def Execute : Template → BufWriter → List Nat → BufWriter × Option Error
  | [], w, _ => (w, none)
  | Node.text bs :: rest, w, data =>
    match w.Write bs with
    | (w, some err) => (w, some err)
    | (w, none) => Execute rest w data
  | Node.dot :: rest, w, data =>
    match w.Write (htmlEscaper data) with
    | (w, some err) => (w, some err)
    | (w, none) => Execute rest w data

end template

/-- The two calls `render` makes into `html/template`. -/
structure TemplateLib where
  Parse : List Nat → Except Error template.Template
  Execute : template.Template → BufWriter → List Nat → BufWriter × Option Error

/-- The library `html/template` as modelled above. -/
def htmlTemplate : TemplateLib := { Parse := template.Parse, Execute := template.Execute }

/-! ## aside.go: the renderer -/

/-- Type `ast.WalkStatus`. -/
inductive WalkStatus where
  | WalkStop
  | WalkSkipChildren
  | WalkContinue
  deriving DecidableEq, Repr

namespace AsideBlockRenderer

/-- The template text of `render`. -/
def templateText : List Nat := ascii "<aside><h3>\x7b\x7b . \x7d\x7d</h3>"

/-- Method `render`: the writer afterwards, the walk status and the error
(`none` for `nil`). -/
def render (lib : TemplateLib) (w : BufWriter) (asideBlock : AsideBlockNode) (entering : Bool) :
    BufWriter × WalkStatus × Option Error :=
  if entering then
    match lib.Parse templateText with
    | .error err => (w, WalkStatus.WalkStop, some (Error.wrap "parsing aside template" err))
    | .ok tpl =>
      match lib.Execute tpl w asideBlock.Title with
      | (w, some err) => (w, WalkStatus.WalkStop, some (Error.wrap "executing aside template" err))
      | (w, none) => (w, WalkStatus.WalkContinue, none)
  else
    ((w.WriteString (ascii "</aside>")).1, WalkStatus.WalkContinue, none)

end AsideBlockRenderer

/-! ## The markdown engine around the parser and the renderer -/

/-- Modelled from the spec: a block of the parsed document (section 3), the
engine's `ast` nodes being outside the repository. A paragraph of the base
grammar with its text, or an aside block with its title and its owned
children in order. -/
inductive Block where
  | Paragraph (text : List Nat)
  | AsideBlock (node : AsideBlockNode) (children : List Block)
  deriving Repr

/-- Modelled from the spec: the state of the line-by-line engine (sections 2
and 3), the engine itself (goldmark's block parser loop, `parseBlocks`) being
outside the repository: the reader, the finished blocks of the document, the
open aside blocks from the innermost outwards with the children each has so
far, and the text of the paragraph being read, which is the innermost open
block when there is one. -/
structure Engine where
  reader : Reader
  done : List Block
  opened : List (AsideBlockNode × List Block)
  paragraph : Option (List Nat)

namespace Engine

/-- Modelled from the spec: the engine before the first line. -/
def init (source : List Nat) : Engine :=
  { reader := { source := source, pos := 0 }, done := [], opened := [], paragraph := none }

/-- Modelled from the spec: a finished block becomes the last child of the
innermost open block, or the last block of the document. -/
def addBlock (e : Engine) (b : Block) : Engine :=
  match e.opened with
  | [] => { e with done := e.done ++ [b] }
  | (n, children) :: rest => { e with opened := (n, children ++ [b]) :: rest }

/-- Modelled from the spec: the white space at the end of a paragraph is not
part of its text (the paragraph parser's `Close` trims its last line). -/
def trimRightSpace (text : List Nat) : List Nat :=
  (text.reverse.dropWhile bytes.asciiSpace).reverse

/-- Modelled from the spec: the paragraph being read, if any, is finished. -/
def closeParagraph (e : Engine) : Engine :=
  match e.paragraph with
  | none => e
  | some text => addBlock { e with paragraph := none } (Block.Paragraph (trimRightSpace text))

/-- Modelled from the spec: the innermost open block is finalized (section 3,
lifecycle): `Close` is called on it and it joins its parent's children. -/
def closeInnermost (e : Engine) : Engine :=
  let e := closeParagraph e
  match e.opened with
  | [] => e
  | (n, children) :: rest =>
    let closed := AsideBlockParser.Close n e.reader
    addBlock { e with opened := rest, reader := closed.2 } (Block.AsideBlock closed.1 children)

/-- Modelled from the spec: `closeInnermost`, `n` times. -/
def closeN : Nat → Engine → Engine
  | 0, e => e
  | n + 1, e => closeN n (closeInnermost e)

/-- Modelled from the spec: close the open blocks nested `depth` deep or
deeper (the outermost open block has depth 0). -/
def closeFrom (depth : Nat) (e : Engine) : Engine := closeN (e.opened.length - depth) e

/-- Modelled from the spec: `Continue` is called once per line on each open
block (section 4.3), the outermost first, each call on the reader as the
call before left it. The result is the depth of the first block that did not
signal `Continue`, if any, whether the innermost block signalled
`HasChildren` when all of them signalled `Continue`, and the reader. -/
def continueOpened : List (AsideBlockNode × List Block) → Nat → Bool → Reader →
    Except Panic (Option Nat × Bool × Reader)
  | [], _, hasChildren, reader => .ok (none, hasChildren, reader)
  | (n, _) :: rest, depth, _, reader => do
    let (state, reader) ← AsideBlockParser.Continue n reader
    if state &&& parser.Continue ≠ 0 then
      continueOpened rest (depth + 1) (state &&& parser.HasChildren != 0) reader
    else .ok (some depth, false, reader)

/-- Modelled from the spec: a blank line (goldmark's `util.IsBlank`); the end
of the input counts as one. -/
def isBlank (line : List Nat) : Bool := line.all bytes.asciiSpace

/-- Modelled from the spec: the indentation of a line that starts in column
0 (goldmark's `util.IndentWidth`): its width in columns, a tab reaching the
next multiple of 4, and the number of bytes it takes. -/
def indentWidth : List Nat → Nat → Nat → Nat × Nat
  | [], width, pos => (width, pos)
  | b :: rest, width, pos =>
    if b = 0x20 then indentWidth rest (width + 1) (pos + 1)
    else if b = 0x09 then indentWidth rest (width + (4 - width % 4)) (pos + 1)
    else (width, pos)

/-- Modelled from the spec: the text a line adds to a paragraph: the line
without the white space before it (the paragraph parser's `TrimLeftSpace`)
and without its newline. -/
def lineText (line : List Nat) : List Nat :=
  (line.dropWhile bytes.asciiSpace).filter (· != 0x0A)

/-- Modelled from the spec: whether the engine offers the line to `Open` of
the aside parser: the first byte after the indentation is a trigger byte
(section 4.1), no paragraph is being read unless the parser can interrupt
one, and the line is indented less than 4 columns unless the parser accepts
indented lines (section 4.5). -/
def offersOpen (line : List Nat) (inParagraph : Bool) : Bool :=
  (match line.get? (indentWidth line 0 0).2 with
    | some c => AsideBlockParser.Trigger.contains c
    | none => false)
  && (!inParagraph || AsideBlockParser.CanInterruptParagraph)
  && ((indentWidth line 0 0).1 ≤ 3 || AsideBlockParser.CanAcceptIndentedLine)

/-- Modelled from the spec: the base grammar's paragraph rule on a line that
no block parser took: the line's text starts a paragraph or continues the
one being read. The paragraph rule stands for the whole base grammar: its
other rules (headings, lists, code blocks and so on) are not modelled. -/
def paragraphLine (e : Engine) (line : List Nat) : Engine :=
  match e.paragraph with
  | none => { e with paragraph := some (lineText line) }
  | some text => { e with paragraph := some (text ++ [0x0A] ++ lineText line) }

/-- Modelled from the spec: the engine opens blocks on the line the reader
stands on, inside the innermost open block (goldmark's `openBlocks`). A
blank line opens nothing and ends the paragraph being read. The aside
parser's `Open`, when the line is offered to it and it returns a node, opens
a block; with `HasChildren` the engine then looks for the block's first
child on the line the reader stands on now, which is the line `Open` left
the reader on. Any other line is paragraph text. The first argument bounds
the number of blocks opened in one call; each takes at least 3 bytes. -/
def openBlocks : Nat → Engine → Except Panic Engine
  | 0, e => .ok e
  | fuel + 1, e =>
    if isBlank e.reader.PeekLine then .ok (closeParagraph e)
    else if offersOpen e.reader.PeekLine e.paragraph.isSome then do
      let (node, state, reader) ← AsideBlockParser.Open e.reader
      match node with
      | some n =>
        let e := closeParagraph e
        let e := { e with opened := (n, []) :: e.opened, reader := reader }
        if state &&& parser.HasChildren ≠ 0 then openBlocks fuel e else .ok e
      | none => .ok (paragraphLine e e.reader.PeekLine)
    else .ok (paragraphLine e e.reader.PeekLine)

/-- Modelled from the spec: whether the line the reader stands on continues
the paragraph being read: it is not blank and no block parser may interrupt
the paragraph. -/
def paragraphGoesOn (e : Engine) : Bool :=
  e.paragraph.isSome && !isBlank e.reader.PeekLine && !offersOpen e.reader.PeekLine true

/-- Modelled from the spec: one pass of the engine's loop (section 2;
goldmark's `parseBlocks`). `Continue` is called on the open blocks. When all
of them go on, the line goes to the general grammar for nested content. When
one signals `Close`, the engine first tries the line the reader stands on
after that call: if it continues the paragraph being read, nothing is
closed; otherwise the block is closed with all blocks nested in it, and the
line may open blocks beside it. Then the reader moves to the start of the
next line (`AdvanceLine`), from wherever the parsers left it. -/
def step (e : Engine) : Except Panic Engine := do
  let (closedAt, hasChildren, reader) ← continueOpened e.opened.reverse 0 true e.reader
  let e := { e with reader := reader }
  let e ← match closedAt with
    | none =>
      if e.paragraph.isSome || hasChildren then openBlocks (e.reader.source.length + 1) e
      else .ok e
    | some depth =>
      if paragraphGoesOn e then .ok (paragraphLine e e.reader.PeekLine)
      else openBlocks (e.reader.source.length + 1) (closeFrom depth e)
  .ok { e with reader := e.reader.AdvanceLine }

/-- Modelled from the spec: at most `n` passes of the engine's loop, stopping
at the end of the input. -/
def run : Nat → Engine → Except Panic Engine
  | 0, e => .ok e
  | n + 1, e => if e.reader.PeekLine = [] then .ok e else do
    let e ← step e
    run n e

/-- Modelled from the spec: the document parsed from `source`: the loop runs
to the end of the input (a pass takes at least one byte), then the blocks
still open and the paragraph being read are finalized (section 3, end of
input). -/
def parse (source : List Nat) : Except Panic (List Block) := do
  let e ← run source.length (init source)
  .ok (closeParagraph (closeFrom 0 e)).done

end Engine

mutual
/-- Modelled from the spec: the tree walk on one block (section 4.6, glossary):
enter, the children, exit; an error or `WalkStop` ends the walk. A paragraph
is written by the base renderer as `<p>`, its text, and `</p>` followed by a
newline; the text is written as it is, which is what the base renderer does
for text without inline markup and without the characters it escapes. -/
def walkBlock (lib : TemplateLib) : Block → BufWriter → BufWriter × WalkStatus × Option Error
  | Block.Paragraph text, w =>
    ((w.WriteString (ascii "<p>" ++ text ++ ascii "</p>\n")).1, WalkStatus.WalkContinue, none)
  | Block.AsideBlock node children, w =>
    match AsideBlockRenderer.render lib w node true with
    | (w, WalkStatus.WalkContinue, none) =>
      match walkBlocks lib children w with
      | (w, WalkStatus.WalkContinue, none) =>
        match AsideBlockRenderer.render lib w node false with
        | (w, WalkStatus.WalkContinue, none) => (w, WalkStatus.WalkContinue, none)
        | (w, _, err) => (w, WalkStatus.WalkStop, err)
      | (w, _, err) => (w, WalkStatus.WalkStop, err)
    | (w, _, err) => (w, WalkStatus.WalkStop, err)
/-- Modelled from the spec: the tree walk on the blocks of a container, in
order. -/
def walkBlocks (lib : TemplateLib) : List Block → BufWriter → BufWriter × WalkStatus × Option Error
  | [], w => (w, WalkStatus.WalkContinue, none)
  | b :: rest, w =>
    match walkBlock lib b w with
    | (w, WalkStatus.WalkContinue, none) => walkBlocks lib rest w
    | (w, _, err) => (w, WalkStatus.WalkStop, err)
end

/-- Modelled from the spec: the HTML of a document, rendered into an empty
writer that does not fail; `none` when the walk was stopped. -/
def renderDocument (lib : TemplateLib) (doc : List Block) : Option (List Nat) :=
  match walkBlocks lib doc { out := [], room := none } with
  | (w, WalkStatus.WalkContinue, none) => some w.out
  | _ => none

/-- The lines of a source, each with its newline; the last line has none
when the source does not end with one. -/
def splitLines : List Nat → List (List Nat)
  | [] => []
  | c :: rest =>
    if c = 0x0A then [c] :: splitLines rest
    else
      match splitLines rest with
      | [] => [[c]]
      | line :: lines => (c :: line) :: lines

/-- The content the specification gives a block for the lines that follow
its opening line (section 6: they are parsed as ordinary nested content),
one line on: the paragraphs finished so far and the text of the paragraph
being read. A blank line ends the paragraph; another line starts one or goes
on with it. -/
def contentStep (acc : List (List Nat) × Option (List Nat)) (line : List Nat) :
    List (List Nat) × Option (List Nat) :=
  if line.all bytes.asciiSpace then
    match acc.2 with
    | none => acc
    | some text => (acc.1 ++ [(text.reverse.dropWhile bytes.asciiSpace).reverse], none)
  else
    match acc.2 with
    | none => (acc.1, some ((line.dropWhile bytes.asciiSpace).filter (· != 0x0A)))
    | some text =>
      (acc.1, some (text ++ [0x0A] ++ (line.dropWhile bytes.asciiSpace).filter (· != 0x0A)))

/-- The paragraphs read so far, the one being read last. -/
def contentEnd (acc : List (List Nat) × Option (List Nat)) : List (List Nat) :=
  match acc.2 with
  | none => acc.1
  | some text => acc.1 ++ [(text.reverse.dropWhile bytes.asciiSpace).reverse]

/-- The content the specification gives a block for the lines that follow
its opening line: the texts of the paragraphs the lines make, every line
that is not blank in one of them. -/
def contentOf (lines : List (List Nat)) : List (List Nat) :=
  contentEnd (lines.foldl contentStep ([], none))

/-! ## Theorems: the UTF-8 decoder -/

namespace utf8

/-- What `first` says about a byte: ASCII, invalid, or the lead byte of an
encoding of 2, 3 or 4 bytes with the range of its second byte. -/
theorem first_class (b : Nat) :
    (b < 0x80 ∧ first b = as_) ∨ (0x80 ≤ b ∧ first b = xx)
      ∨ ∃ sz lo hi, 0xC2 ≤ b ∧ first b < as_ ∧ first b &&& 7 = sz
          ∧ acceptRanges (first b >>> 4) = (lo, hi)
          ∧ 2 ≤ sz ∧ sz ≤ 4 ∧ 0x80 ≤ lo ∧ hi ≤ 0xBF := by
  generalize hx : first b = x
  unfold first at hx
  split_ifs at hx with h1 h2 h3 h4 h5 h6 h7 h8 h9 h10 <;> subst hx
  · exact Or.inl ⟨h1, rfl⟩
  · exact Or.inr (Or.inl ⟨by omega, rfl⟩)
  · exact Or.inr (Or.inr ⟨2, 0x80, 0xBF, by omega, by decide, by decide, by decide, by decide, by decide, by decide, by decide⟩)
  · exact Or.inr (Or.inr ⟨3, 0xA0, 0xBF, by omega, by decide, by decide, by decide, by decide, by decide, by decide, by decide⟩)
  · exact Or.inr (Or.inr ⟨3, 0x80, 0xBF, by omega, by decide, by decide, by decide, by decide, by decide, by decide, by decide⟩)
  · exact Or.inr (Or.inr ⟨3, 0x80, 0x9F, by omega, by decide, by decide, by decide, by decide, by decide, by decide, by decide⟩)
  · exact Or.inr (Or.inr ⟨3, 0x80, 0xBF, by omega, by decide, by decide, by decide, by decide, by decide, by decide, by decide⟩)
  · exact Or.inr (Or.inr ⟨4, 0x90, 0xBF, by omega, by decide, by decide, by decide, by decide, by decide, by decide, by decide⟩)
  · exact Or.inr (Or.inr ⟨4, 0x80, 0xBF, by omega, by decide, by decide, by decide, by decide, by decide, by decide, by decide⟩)
  · exact Or.inr (Or.inr ⟨4, 0x80, 0x8F, by omega, by decide, by decide, by decide, by decide, by decide, by decide, by decide⟩)
  · exact Or.inr (Or.inl ⟨by omega, rfl⟩)

theorem DecodeRune_ascii (b : Nat) (t : List Nat) (h : b < 0x80) :
    DecodeRune (b :: t) = (b, 1) := by
  simp [DecodeRune, first, h, as_]

theorem DecodeRune_xx (b : Nat) (t : List Nat) (h : first b = xx) :
    DecodeRune (b :: t) = (RuneError, 1) := by
  simp [DecodeRune, h, as_, xx]

/-- The decoder on a lead byte, by the size and second-byte range `first`
gives. -/
theorem DecodeRune_lead (p0 : Nat) (t : List Nat) (sz lo hi : Nat)
    (h0 : first p0 < as_) (hsz : first p0 &&& 7 = sz)
    (hacc : acceptRanges (first p0 >>> 4) = (lo, hi)) (h2 : 2 ≤ sz) (h4 : sz ≤ 4) :
    DecodeRune (p0 :: t) =
      match t with
      | [] => (RuneError, 1)
      | b1 :: t1 =>
        if b1 < lo ∨ hi < b1 then (RuneError, 1)
        else if sz = 2 then (rune2 p0 b1, 2)
        else
          match t1 with
          | [] => (RuneError, 1)
          | b2 :: t2 =>
            if b2 < 0x80 ∨ 0xBF < b2 then (RuneError, 1)
            else if sz = 3 then (rune3 p0 b1 b2, 3)
            else
              match t2 with
              | [] => (RuneError, 1)
              | b3 :: _ =>
                if b3 < 0x80 ∨ 0xBF < b3 then (RuneError, 1)
                else (rune4 p0 b1 b2 b3, 4) := by
  have h0' : ¬ first p0 ≥ as_ := by omega
  simp only [DecodeRune, h0', hsz, hacc, if_false, locb, hicb]
  match t with
  | [] => simp
  | [b1] =>
    simp only [List.length_cons, List.length_nil]
    by_cases hs : sz = 2
    · simp [hs]
    · have : 0 + 1 + 1 < sz := by omega
      simp only [this, if_true, hs, if_false]
      split_ifs <;> rfl
  | [b1, b2] =>
    simp only [List.length_cons, List.length_nil]
    by_cases hs : sz = 2
    · simp [hs]
    · by_cases hs3 : sz = 3
      · simp [hs3]
      · have : 0 + 1 + 1 + 1 < sz := by omega
        simp only [this, if_true, hs, hs3, if_false]
        split_ifs <;> rfl
  | b1 :: b2 :: b3 :: t3 =>
    simp only [List.length_cons]
    have : ¬ (t3.length + 1 + 1 + 1 + 1 < sz) := by omega
    simp only [this, if_false]
    by_cases hs : sz = 2
    · simp [hs]
    · by_cases hs3 : sz = 3
      · simp [hs3]
      · have e1 : ¬ sz ≤ 2 := by omega
        have e2 : ¬ sz ≤ 3 := by omega
        simp [hs, hs3, e1, e2]




theorem DecodeRune_width_pos (p0 : Nat) (t : List Nat) : 1 ≤ (DecodeRune (p0 :: t)).2 := by
  rcases first_class p0 with ⟨h, -⟩ | ⟨-, h⟩ | ⟨sz, lo, hi, -, h0, hsz, hacc, h2, h4, -, -⟩
  · rw [DecodeRune_ascii p0 t h]
  · rw [DecodeRune_xx p0 t h]
  · rw [DecodeRune_lead p0 t sz lo hi h0 hsz hacc h2 h4]
    repeat' split
    all_goals simp

theorem DecodeRune_width_le (p : List Nat) : (DecodeRune p).2 ≤ p.length := by
  match p with
  | [] => simp [DecodeRune]
  | p0 :: t =>
    rcases first_class p0 with ⟨h, -⟩ | ⟨-, h⟩ | ⟨sz, lo, hi, -, h0, hsz, hacc, h2, h4, -, -⟩
    · rw [DecodeRune_ascii p0 t h]; simp
    · rw [DecodeRune_xx p0 t h]; simp
    · rw [DecodeRune_lead p0 t sz lo hi h0 hsz hacc h2 h4]
      repeat' split
      all_goals simp

/-- A rune decoded with a width of 2 or more, or different from `RuneError`,
is decoded from the first `width` bytes alone. -/
theorem DecodeRune_take (p : List Nat) (r w : Nat) (h : DecodeRune p = (r, w))
    (hv : r ≠ RuneError ∨ 2 ≤ w) : DecodeRune (p.take w) = (r, w) := by
  match p with
  | [] => simp [DecodeRune] at h; simp [← h.1, ← h.2] at hv
  | p0 :: t =>
    rcases first_class p0 with ⟨h1, -⟩ | ⟨-, h1⟩ | ⟨sz, lo, hi, -, h0, hsz, hacc, h2, h4, -, -⟩
    · rw [DecodeRune_ascii p0 t h1] at h
      obtain ⟨rfl, rfl⟩ := Prod.mk.inj h
      exact DecodeRune_ascii p0 _ h1
    · rw [DecodeRune_xx p0 t h1] at h
      obtain ⟨rfl, rfl⟩ := Prod.mk.inj h
      exact DecodeRune_xx p0 _ h1
    · rw [DecodeRune_lead p0 t sz lo hi h0 hsz hacc h2 h4] at h
      revert h
      repeat' split
      all_goals intro h
      all_goals obtain ⟨rfl, rfl⟩ := Prod.mk.inj h
      all_goals first
        | (exfalso; omega)
        | (simp only [List.take_succ_cons, List.take_zero]
           rw [DecodeRune_lead p0 _ sz lo hi h0 hsz hacc h2 h4]
           simp [*])



/-- A complete encoding stays the decoded rune when bytes follow it. -/
theorem DecodeRune_append (c rest : List Nat) (r : Nat)
    (h : DecodeRune c = (r, c.length)) (hv : r ≠ RuneError ∨ 2 ≤ c.length) :
    DecodeRune (c ++ rest) = (r, c.length) := by
  match c with
  | [] => simp [DecodeRune] at h; simp [← h] at hv
  | p0 :: t =>
    rcases first_class p0 with ⟨h1, -⟩ | ⟨-, h1⟩ | ⟨sz, lo, hi, -, h0, hsz, hacc, h2, h4, -, -⟩
    · rw [DecodeRune_ascii p0 t h1] at h
      rw [List.cons_append, DecodeRune_ascii p0 _ h1, h]
    · rw [DecodeRune_xx p0 t h1] at h
      rw [List.cons_append, DecodeRune_xx p0 _ h1, h]
    · rw [DecodeRune_lead p0 t sz lo hi h0 hsz hacc h2 h4] at h
      rw [List.cons_append, DecodeRune_lead p0 _ sz lo hi h0 hsz hacc h2 h4]
      match t with
      | [] =>
        simp only [List.length_cons, List.length_nil, Prod.mk.injEq] at h
        simp [← h.1] at hv
      | [b1] =>
        simp only [List.cons_append, List.nil_append, List.length_cons, List.length_nil] at h ⊢
        split_ifs at h ⊢ <;> simp_all
      | [b1, b2] =>
        simp only [List.cons_append, List.nil_append, List.length_cons, List.length_nil] at h ⊢
        split_ifs at h ⊢ <;> simp_all
      | [b1, b2, b3] =>
        simp only [List.cons_append, List.nil_append, List.length_cons, List.length_nil] at h ⊢
        split_ifs at h ⊢ <;> simp_all
      | b1 :: b2 :: b3 :: b4 :: t4 =>
        simp only [List.cons_append, List.nil_append, List.length_cons, List.length_nil] at h ⊢
        split_ifs at h ⊢ <;> simp_all

end utf8

/-! ## Theorems: white space and `bytes.TrimSpace` -/

theorem IsSpace_RuneError : unicode.IsSpace utf8.RuneError = false := by decide

theorem IsSpace_ne_RuneError (r : Nat) (h : unicode.IsSpace r = true) : r ≠ utf8.RuneError := by
  rintro rfl
  simp [IsSpace_RuneError] at h

theorem IsSpaceRune_ne_nil (c : List Nat) (h : IsSpaceRune c) : c ≠ [] := by
  rintro rfl
  have := h.2
  simp [utf8.DecodeRune, IsSpace_RuneError] at this

theorem WhiteSpace_append (a b : List Nat) (ha : WhiteSpace a) (hb : WhiteSpace b) :
    WhiteSpace (a ++ b) := by
  induction ha with
  | nil => simpa using hb
  | cons c rest hc _ ih =>
    rw [List.append_assoc]
    exact WhiteSpace.cons c _ hc ih

theorem WhiteSpace_single (c : List Nat) (h : IsSpaceRune c) : WhiteSpace c := by
  have := WhiteSpace.cons c [] h WhiteSpace.nil
  simpa using this

/-- The rune at the front of `t`, when it is white space, splits `t` into
its encoding and the rest. -/
theorem IsSpaceRune_take (t : List Nat) (h : unicode.IsSpace (utf8.DecodeRune t).1 = true) :
    IsSpaceRune (t.take (utf8.DecodeRune t).2) := by
  have hw := utf8.DecodeRune_width_le t
  have h0 : utf8.DecodeRune t = ((utf8.DecodeRune t).1, (utf8.DecodeRune t).2) := rfl
  have h1 := utf8.DecodeRune_take t (utf8.DecodeRune t).1 (utf8.DecodeRune t).2 h0
    (Or.inl (IsSpace_ne_RuneError _ h))
  refine ⟨?_, ?_⟩
  · rw [h1, List.length_take]
    omega
  · rw [h1]
    exact h

theorem whiteSpaceLoop_of_WhiteSpace (ws : List Nat) (h : WhiteSpace ws) :
    ∀ fuel, ws.length ≤ fuel → whiteSpaceLoop fuel ws = true := by
  induction h with
  | nil => intro fuel _; cases fuel <;> rfl
  | cons c rest hc _ ih =>
    intro fuel hf
    match c, hc with
    | [], hc => exact absurd rfl (IsSpaceRune_ne_nil [] hc)
    | c0 :: ct, hc =>
      have hd := utf8.DecodeRune_append (c0 :: ct) rest (utf8.DecodeRune (c0 :: ct)).1
        (Prod.ext rfl hc.1) (Or.inl (IsSpace_ne_RuneError _ hc.2))
      match fuel, hf with
      | 0, hf => simp at hf
      | fuel + 1, hf =>
        simp only [List.cons_append] at hd ⊢
        simp only [whiteSpaceLoop, hd, hc.2, Bool.true_and]
        rw [← List.cons_append, List.drop_left]
        apply ih
        simp only [List.length_append, List.length_cons] at hf
        omega

theorem isWhiteSpace_of_WhiteSpace (ws : List Nat) (h : WhiteSpace ws) : isWhiteSpace ws = true :=
  whiteSpaceLoop_of_WhiteSpace ws h _ (Nat.le_refl _)

/-- The rune `indexFunc` reads at the front of `c :: t` is the decoded one:
the ASCII shortcut agrees with the decoder. -/
theorem rune_at_front (c : Nat) (t : List Nat) :
    (if c ≥ utf8.RuneSelf then utf8.DecodeRune (c :: t) else (c, 1)) = utf8.DecodeRune (c :: t) := by
  split
  · rfl
  · rw [utf8.DecodeRune_ascii c t (by simp only [utf8.RuneSelf] at *; omega)]

theorem indexFuncLoop_spec (s : List Nat) :
    ∀ fuel start, s.length ≤ start + fuel →
      ∃ ws, WhiteSpace ws ∧ s.drop start = ws ++
        (match bytes.indexFuncLoop s unicode.IsSpace false fuel start with
          | some i => s.drop i
          | none => []) := by
  intro fuel
  induction fuel with
  | zero =>
    intro start h
    refine ⟨[], WhiteSpace.nil, ?_⟩
    simp only [bytes.indexFuncLoop, List.nil_append]
    exact List.drop_eq_nil_of_le (by omega)
  | succ fuel ih =>
    intro start h
    by_cases hs : start < s.length
    · have hd : s.drop start = s[start] :: s.drop (start + 1) := List.drop_eq_getElem_cons hs
      have hg : s.getD start 0 = s[start] := List.getD_eq_getElem _ _ hs
      simp only [bytes.indexFuncLoop, hs, if_true, hg, hd, rune_at_front]
      rw [← hd]
      by_cases hf : unicode.IsSpace (utf8.DecodeRune (s.drop start)).1 = true
      · have hne : ¬ ((unicode.IsSpace (utf8.DecodeRune (s.drop start)).1 == false) = true) := by
          simp [hf]
        rw [if_neg hne]
        have hw1 : 1 ≤ (utf8.DecodeRune (s.drop start)).2 := by
          rw [hd]; exact utf8.DecodeRune_width_pos _ _
        obtain ⟨ws, hws, he⟩ := ih (start + (utf8.DecodeRune (s.drop start)).2) (by omega)
        refine ⟨(s.drop start).take (utf8.DecodeRune (s.drop start)).2 ++ ws,
          WhiteSpace_append _ _ (WhiteSpace_single _ (IsSpaceRune_take _ hf)) hws, ?_⟩
        rw [List.append_assoc, ← he, ← List.drop_drop, List.take_append_drop]
      · have hne : (unicode.IsSpace (utf8.DecodeRune (s.drop start)).1 == false) = true := by
          simp at hf; simp [hf]
        rw [if_pos hne]
        exact ⟨[], WhiteSpace.nil, rfl⟩
    · refine ⟨[], WhiteSpace.nil, ?_⟩
      simp only [bytes.indexFuncLoop, hs, if_false, List.nil_append]
      exact List.drop_eq_nil_of_le (by omega)

/-- `TrimLeftFunc` with `unicode.IsSpace` removes white space only. -/
theorem TrimLeftFunc_decomp (s : List Nat) :
    ∃ ws, WhiteSpace ws ∧ s = ws ++ bytes.TrimLeftFunc s unicode.IsSpace := by
  obtain ⟨ws, hws, he⟩ := indexFuncLoop_spec s s.length 0 (by omega)
  refine ⟨ws, hws, ?_⟩
  rw [List.drop_zero] at he
  have ht : bytes.TrimLeftFunc s unicode.IsSpace
      = (match bytes.indexFuncLoop s unicode.IsSpace false s.length 0 with
          | some i => s.drop i
          | none => []) := by
    unfold bytes.TrimLeftFunc bytes.indexFunc
    cases bytes.indexFuncLoop s unicode.IsSpace false s.length 0 <;> rfl
  rw [ht]
  exact he

theorem scanBack_le (p : List Nat) (lim : Nat) : ∀ k, utf8.scanBack p lim k ≤ k := by
  intro k
  induction k with
  | zero => simp [utf8.scanBack]
  | succ k ih =>
    unfold utf8.scanBack
    split_ifs <;> omega

/-- What `DecodeLastRune` returns on input that ends in a non-ASCII byte:
`(RuneError, 1)`, or the rune and width `DecodeRune` reads from the last
`size` bytes. -/
theorem DecodeLastRune_spec (p : List Nat) (hp : 0 < p.length)
    (hc : ¬ p.getD (p.length - 1) 0 < utf8.RuneSelf) :
    utf8.DecodeLastRune p = (utf8.RuneError, 1)
      ∨ (1 ≤ (utf8.DecodeLastRune p).2 ∧ (utf8.DecodeLastRune p).2 ≤ p.length
          ∧ utf8.DecodeRune (p.drop (p.length - (utf8.DecodeLastRune p).2)) = utf8.DecodeLastRune p) := by
  have h0 : ¬ p.length = 0 := by omega
  simp only [utf8.DecodeLastRune, h0, hc, if_false, List.take_length]
  generalize hst : utf8.scanBack p (p.length - utf8.UTFMax) (p.length - 1) - 1 = start
  have hlt : start < p.length := by
    have := scanBack_le p (p.length - utf8.UTFMax) (p.length - 1)
    omega
  have hw : 1 ≤ (utf8.DecodeRune (p.drop start)).2 := by
    rw [List.drop_eq_getElem_cons hlt]
    exact utf8.DecodeRune_width_pos _ _
  by_cases he : start + (utf8.DecodeRune (p.drop start)).2 = p.length
  · right
    have hne : ¬ (start + (utf8.DecodeRune (p.drop start)).2 ≠ p.length) := by simpa using he
    rw [if_neg hne]
    have hs : p.length - (utf8.DecodeRune (p.drop start)).2 = start := by omega
    refine ⟨hw, by omega, ?_⟩
    rw [hs]
  · left
    have hne : start + (utf8.DecodeRune (p.drop start)).2 ≠ p.length := he
    rw [if_pos hne]

/-- White space starts with a byte that begins a rune. -/
theorem WhiteSpace_head (ws : List Nat) (h : WhiteSpace ws) :
    ws = [] ∨ ∃ b t, ws = b :: t ∧ (b < 0x80 ∨ 0xC2 ≤ b) := by
  induction h with
  | nil => exact Or.inl rfl
  | cons c rest hc _ _ =>
    right
    match c, hc with
    | [], hc => exact absurd rfl (IsSpaceRune_ne_nil [] hc)
    | b :: t, hc =>
      refine ⟨b, t ++ rest, rfl, ?_⟩
      rcases utf8.first_class b with ⟨h1, -⟩ | ⟨-, h1⟩ | ⟨sz, lo, hi, h1, -⟩
      · exact Or.inl h1
      · have := hc.2
        rw [utf8.DecodeRune_xx b t h1, IsSpace_RuneError] at this
        cases this
      · exact Or.inr h1

/-- A non-ASCII byte that no continuation byte follows decodes with width 1. -/
theorem DecodeRune_width_one (b : Nat) (rest : List Nat) (hb : 0x80 ≤ b)
    (hr : rest = [] ∨ ∃ c t, rest = c :: t ∧ (c < 0x80 ∨ 0xC2 ≤ c)) :
    (utf8.DecodeRune (b :: rest)).2 = 1 := by
  rcases utf8.first_class b with ⟨h1, -⟩ | ⟨-, h1⟩ | ⟨sz, lo, hi, -, h0, hsz, hacc, h2, h4, hlo, hhi⟩
  · omega
  · rw [utf8.DecodeRune_xx b rest h1]
  · rw [utf8.DecodeRune_lead b rest sz lo hi h0 hsz hacc h2 h4]
    rcases hr with rfl | ⟨c, t, rfl, hc⟩
    · rfl
    · have : c < lo ∨ hi < c := by omega
      simp only [this, if_true]

theorem lastRune_spec (s : List Nat) (i : Nat) (hi : 0 < i) (hl : i ≤ s.length) :
    1 ≤ (lastRune s i).2 ∧ (lastRune s i).2 ≤ i
      ∧ ((lastRune s i).2 = 1
          ∨ utf8.DecodeRune ((s.take i).drop (i - (lastRune s i).2)) = lastRune s i)
      ∧ (unicode.IsSpace (lastRune s i).1 = true
          → IsSpaceRune ((s.take i).drop (i - (lastRune s i).2))) := by
  have hlen : (s.take i).length = i := by simp [List.length_take]; omega
  have hget : (s.take i).getD ((s.take i).length - 1) 0 = s.getD (i - 1) 0 := by
    rw [hlen, List.getD_eq_getElem _ _ (by omega), List.getD_eq_getElem _ _ (by omega)]
    simp
  unfold lastRune
  by_cases hc : s.getD (i - 1) 0 ≥ utf8.RuneSelf
  · rw [if_pos hc]
    have hc' : ¬ (s.take i).getD ((s.take i).length - 1) 0 < utf8.RuneSelf := by
      rw [hget]; omega
    rcases DecodeLastRune_spec (s.take i) (by omega) hc' with h | ⟨h1, h2, h3⟩
    · rw [h]
      refine ⟨by simp, by simpa using hi, Or.inl rfl, ?_⟩
      intro hsp
      rw [IsSpace_RuneError] at hsp
      cases hsp
    · rw [hlen] at h2 h3
      refine ⟨h1, h2, Or.inr h3, ?_⟩
      intro hsp
      refine ⟨?_, ?_⟩
      · rw [h3, List.length_drop, hlen]
        omega
      · rw [h3]
        exact hsp
  · rw [if_neg hc]
    have hd : (s.take i).drop (i - 1) = [s.getD (i - 1) 0] := by
      have h1 : i - 1 < (s.take i).length := by omega
      rw [List.drop_eq_getElem_cons h1, List.drop_eq_nil_of_le (by omega),
        List.getD_eq_getElem _ _ (by omega)]
      simp
    have hlt : s.getD (i - 1) 0 < 0x80 := by
      simp only [utf8.RuneSelf] at hc
      omega
    refine ⟨by simp, by simpa using hi, Or.inl rfl, ?_⟩
    intro hsp
    simp only at hsp ⊢
    rw [hd]
    refine ⟨?_, ?_⟩
    · rw [utf8.DecodeRune_ascii _ _ hlt]; rfl
    · rw [utf8.DecodeRune_ascii _ _ hlt]; exact hsp

theorem lastIndexFuncLoop_step (s : List Nat) (fuel i : Nat) (hi : 0 < i) :
    bytes.lastIndexFuncLoop s unicode.IsSpace false (fuel + 1) i
      = if unicode.IsSpace (lastRune s i).1 = true
        then bytes.lastIndexFuncLoop s unicode.IsSpace false fuel (i - (lastRune s i).2)
        else some (i - (lastRune s i).2) := by
  simp only [bytes.lastIndexFuncLoop, hi, if_true, lastRune]
  generalize (if s.getD (i - 1) 0 ≥ utf8.RuneSelf then utf8.DecodeLastRune (s.take i)
    else (s.getD (i - 1) 0, 1)) = pr
  cases h : unicode.IsSpace pr.1 <;> simp

theorem lastIndexFuncLoop_spec (s : List Nat) :
    ∀ fuel i, i ≤ s.length → i ≤ fuel →
      match bytes.lastIndexFuncLoop s unicode.IsSpace false fuel i with
      | none => WhiteSpace (s.take i)
      | some j => ∃ e, j < e ∧ e ≤ i ∧ WhiteSpace ((s.take i).drop e)
          ∧ (e = j + 1 ∨ (2 ≤ e - j ∧ ∃ r, utf8.DecodeRune ((s.take e).drop j) = (r, e - j)))
          ∧ unicode.IsSpace (lastRune s e).1 = false := by
  intro fuel
  induction fuel with
  | zero =>
    intro i _ hf
    have : i = 0 := by omega
    subst this
    simp only [bytes.lastIndexFuncLoop, List.take_zero]
    exact WhiteSpace.nil
  | succ fuel ih =>
    intro i hl hf
    by_cases hi : 0 < i
    · rw [lastIndexFuncLoop_step s fuel i hi]
      obtain ⟨h1, h2, h3, h4⟩ := lastRune_spec s i hi hl
      have hsplit : s.take i = s.take (i - (lastRune s i).2)
          ++ (s.take i).drop (i - (lastRune s i).2) := by
        conv_lhs => rw [← List.take_append_drop (i - (lastRune s i).2) (s.take i)]
        rw [List.take_take]
        congr 2
        omega
      by_cases hsp : unicode.IsSpace (lastRune s i).1 = true
      · rw [if_pos hsp]
        have hrec := ih (i - (lastRune s i).2) (by omega) (by omega)
        have hch := WhiteSpace_single _ (h4 hsp)
        revert hrec
        cases bytes.lastIndexFuncLoop s unicode.IsSpace false fuel (i - (lastRune s i).2) with
        | none =>
          intro hrec
          simp only at hrec ⊢
          rw [hsplit]
          exact WhiteSpace_append _ _ hrec hch
        | some j =>
          intro hrec
          simp only at hrec ⊢
          obtain ⟨e, he1, he2, he3, he4, he5⟩ := hrec
          refine ⟨e, he1, by omega, ?_, he4, he5⟩
          rw [hsplit, List.drop_append_of_le_length (by simp [List.length_take]; omega)]
          exact WhiteSpace_append _ _ he3 hch
      · rw [if_neg hsp]
        simp only
        refine ⟨i, by omega, Nat.le_refl _, ?_, ?_, by simpa using hsp⟩
        · rw [List.drop_eq_nil_of_le (by simp [List.length_take])]
          exact WhiteSpace.nil
        · rcases h3 with h3 | h3
          · left; omega
          · by_cases h5 : (lastRune s i).2 = 1
            · left; omega
            · right
              refine ⟨by omega, (lastRune s i).1, ?_⟩
              rw [h3]
              apply Prod.ext
              · rfl
              · simp only; omega
    · have : i = 0 := by omega
      subst this
      simp only [bytes.lastIndexFuncLoop, Nat.lt_irrefl, if_false, List.take_zero]
      exact WhiteSpace.nil

/-- `TrimRightFunc` with `unicode.IsSpace` cuts `s` at an index `e`: what
follows is white space, and the rune that ends at `e` is not. -/
theorem TrimRightFunc_spec (s : List Nat) :
    ∃ e, e ≤ s.length ∧ bytes.TrimRightFunc s unicode.IsSpace = s.take e
      ∧ WhiteSpace (s.drop e) ∧ (e = 0 ∨ unicode.IsSpace (lastRune s e).1 = false) := by
  have hspec := lastIndexFuncLoop_spec s s.length s.length (Nat.le_refl _) (Nat.le_refl _)
  unfold bytes.TrimRightFunc bytes.lastIndexFunc
  revert hspec
  cases bytes.lastIndexFuncLoop s unicode.IsSpace false s.length s.length with
  | none =>
    intro hspec
    simp only [List.take_length] at hspec
    exact ⟨0, by omega, rfl, by simpa using hspec, Or.inl rfl⟩
  | some j =>
    intro hspec
    simp only [List.take_length] at hspec
    obtain ⟨e, he1, he2, he3, he4, he5⟩ := hspec
    have hj : j < s.length := by omega
    have hd : s.drop j = s[j] :: s.drop (j + 1) := List.drop_eq_getElem_cons hj
    have hg : s.getD j 0 = s[j] := List.getD_eq_getElem _ _ hj
    have hchunk : s.drop j = (s.take e).drop j ++ s.drop e := by
      conv_lhs => rw [← List.take_append_drop e s]
      rw [List.drop_append_of_le_length (by simp [List.length_take]; omega)]
    have hclen : ((s.take e).drop j).length = e - j := by
      simp [List.length_take]; omega
    refine ⟨e, he2, ?_, he3, Or.inr he5⟩
    simp only [hg]
    by_cases hc : s[j] ≥ utf8.RuneSelf
    · rw [if_pos hc]
      rcases he4 with rfl | ⟨h2, r, hr⟩
      · rw [hd, DecodeRune_width_one s[j] _ (by simpa [utf8.RuneSelf] using hc)
          (WhiteSpace_head _ he3)]
      · have := utf8.DecodeRune_append ((s.take e).drop j) (s.drop e) r
          (by rw [hr, hclen]) (Or.inr (by omega))
        rw [hchunk, this, hclen]
        congr 1
        omega
    · rw [if_neg hc]
      rcases he4 with rfl | ⟨h2, r, hr⟩
      · rfl
      · exfalso
        have hlt : s[j] < 0x80 := by
          simp only [utf8.RuneSelf] at hc
          omega
        have hd2 : (s.take e).drop j = s[j] :: (s.take e).drop (j + 1) := by
          rw [List.drop_eq_getElem_cons (by simp [List.length_take]; omega)]
          simp
        rw [hd2, utf8.DecodeRune_ascii _ _ hlt] at hr
        have := (Prod.mk.inj hr).2
        omega

/-- `TrimRightFunc` with `unicode.IsSpace` removes white space only. -/
theorem TrimRightFunc_decomp (s : List Nat) :
    ∃ ws, WhiteSpace ws ∧ s = bytes.TrimRightFunc s unicode.IsSpace ++ ws := by
  obtain ⟨e, -, h1, h2, -⟩ := TrimRightFunc_spec s
  exact ⟨s.drop e, h2, by rw [h1, List.take_append_drop]⟩

/-- `TrimFunc` with `unicode.IsSpace` removes white space only, on both
sides. -/
theorem TrimFunc_decomp (s : List Nat) :
    ∃ ws1 ws2, WhiteSpace ws1 ∧ WhiteSpace ws2
      ∧ s = ws1 ++ bytes.TrimFunc s unicode.IsSpace ++ ws2 := by
  obtain ⟨ws1, h1, e1⟩ := TrimLeftFunc_decomp s
  obtain ⟨ws2, h2, e2⟩ := TrimRightFunc_decomp (bytes.TrimLeftFunc s unicode.IsSpace)
  refine ⟨ws1, ws2, h1, h2, ?_⟩
  unfold bytes.TrimFunc
  rw [List.append_assoc, ← e2, ← e1]

theorem asciiSpace_IsSpaceRune (c : Nat) (h : bytes.asciiSpace c = true) : IsSpaceRune [c] := by
  simp only [bytes.asciiSpace, Bool.or_eq_true, beq_iff_eq] at h
  rcases h with ((((rfl | rfl) | rfl) | rfl) | rfl) | rfl <;> exact ⟨by decide, by decide⟩

theorem trimSpaceStop_decomp (t : List Nat) :
    ∀ k, k ≤ t.length → ∃ ws1 ws2, WhiteSpace ws1 ∧ WhiteSpace ws2
      ∧ t.take k = ws1 ++ bytes.trimSpaceStop t k ++ ws2 := by
  intro k
  induction k with
  | zero => intro _; exact ⟨[], [], WhiteSpace.nil, WhiteSpace.nil, by simp [bytes.trimSpaceStop]⟩
  | succ k ih =>
    intro hk
    unfold bytes.trimSpaceStop
    simp only
    split_ifs with h1 h2
    · exact TrimFunc_decomp _
    · obtain ⟨ws1, ws2, hw1, hw2, he⟩ := ih (by omega)
      refine ⟨ws1, ws2 ++ [t.getD k 0], hw1,
        WhiteSpace_append _ _ hw2 (WhiteSpace_single _ (asciiSpace_IsSpaceRune _ h2)), ?_⟩
      rw [List.take_succ, he, List.getD_eq_getElem _ _ (by omega),
        List.getElem?_eq_getElem (by omega)]
      simp
    · exact ⟨[], [], WhiteSpace.nil, WhiteSpace.nil, by simp⟩

/-- `TrimSpace` removes white space only, on both sides. -/
theorem TrimSpace_decomp (s : List Nat) :
    ∃ ws1 ws2, WhiteSpace ws1 ∧ WhiteSpace ws2 ∧ s = ws1 ++ bytes.TrimSpace s ++ ws2 := by
  induction s with
  | nil => exact ⟨[], [], WhiteSpace.nil, WhiteSpace.nil, by simp [bytes.TrimSpace]⟩
  | cons c rest ih =>
    unfold bytes.TrimSpace
    split_ifs with h1 h2
    · exact TrimFunc_decomp _
    · obtain ⟨ws1, ws2, hw1, hw2, he⟩ := ih
      refine ⟨[c] ++ ws1, ws2,
        WhiteSpace_append _ _ (WhiteSpace_single _ (asciiSpace_IsSpaceRune _ h2)) hw1, hw2, ?_⟩
      conv_lhs => rw [he]
      simp
    · have := trimSpaceStop_decomp (c :: rest) (c :: rest).length (Nat.le_refl _)
      rwa [List.take_length] at this

/-! ## Theorems: `bytes.TrimSpace` leaves no white space at either end -/

/-- Cutting the input short either leaves the decoded rune as it is or makes
it `RuneError`. -/
theorem DecodeRune_take_or_error (p : List Nat) (e : Nat) (he : 1 ≤ e) :
    utf8.DecodeRune (p.take e) = utf8.DecodeRune p
      ∨ (utf8.DecodeRune (p.take e)).1 = utf8.RuneError := by
  match p, e, he with
  | [], _, _ => left; simp
  | p0 :: t, k + 1, _ =>
    rw [List.take_succ_cons]
    rcases utf8.first_class p0 with ⟨h1, -⟩ | ⟨-, h1⟩ | ⟨sz, lo, hi, -, h0, hsz, hacc, h2, h4, -, -⟩
    · left; rw [utf8.DecodeRune_ascii p0 _ h1, utf8.DecodeRune_ascii p0 _ h1]
    · left; rw [utf8.DecodeRune_xx p0 _ h1, utf8.DecodeRune_xx p0 _ h1]
    · rw [utf8.DecodeRune_lead p0 _ sz lo hi h0 hsz hacc h2 h4,
        utf8.DecodeRune_lead p0 _ sz lo hi h0 hsz hacc h2 h4]
      match t, k with
      | [], _ => left; simp
      | _ :: _, 0 => right; rfl
      | [b1], k1 + 1 => left; simp
      | b1 :: _ :: _, 1 =>
        simp only [List.take_succ_cons, List.take_zero]
        split_ifs <;> simp
      | [b1, b2], k2 + 2 => left; simp
      | b1 :: b2 :: _ :: _, 2 =>
        simp only [List.take_succ_cons, List.take_zero]
        split_ifs <;> simp
      | b1 :: b2 :: b3 :: t3, k3 + 3 =>
        simp only [List.take_succ_cons]
        split_ifs <;> simp

theorem IsSpace_DecodeRune_take (p : List Nat) (e : Nat) (he : 1 ≤ e)
    (h : unicode.IsSpace (utf8.DecodeRune p).1 = false) :
    unicode.IsSpace (utf8.DecodeRune (p.take e)).1 = false := by
  rcases DecodeRune_take_or_error p e he with h1 | h1
  · rw [h1]; exact h
  · rw [h1]; exact IsSpace_RuneError

theorem IsSpace_eq_asciiSpace (c : Nat) (h : c < 0x80) :
    unicode.IsSpace c = bytes.asciiSpace c := by
  have h1 : c ≤ 0xFF := by omega
  have h2 : (c == 0x85) = false := by simp; omega
  have h3 : (c == 0xA0) = false := by simp; omega
  simp only [unicode.IsSpace, h1, if_true, bytes.asciiSpace, h2, h3, Bool.or_false]

/-- The rune `lastIndexFunc` reads is the one `DecodeLastRune` returns. -/
theorem lastRune_eq (s : List Nat) (i : Nat) (hi : 0 < i) (hl : i ≤ s.length) :
    lastRune s i = utf8.DecodeLastRune (s.take i) := by
  have hlen : (s.take i).length = i := by simp [List.length_take]; omega
  have hget : (s.take i).getD ((s.take i).length - 1) 0 = s.getD (i - 1) 0 := by
    rw [hlen, List.getD_eq_getElem _ _ (by omega), List.getD_eq_getElem _ _ (by omega)]
    simp
  unfold lastRune
  split_ifs with hc
  · rfl
  · have h0 : ¬ (s.take i).length = 0 := by omega
    have hc' : (s.take i).getD ((s.take i).length - 1) 0 < utf8.RuneSelf := by
      rw [hget]; omega
    have hc2 : s.getD (i - 1) 0 < utf8.RuneSelf := by omega
    simp only [utf8.DecodeLastRune, h0, if_false, hget]
    rw [if_pos hc2]

theorem indexFuncLoop_some (s : List Nat) :
    ∀ fuel start i, bytes.indexFuncLoop s unicode.IsSpace false fuel start = some i →
      i < s.length ∧ unicode.IsSpace (utf8.DecodeRune (s.drop i)).1 = false := by
  intro fuel
  induction fuel with
  | zero => intro start i h; simp [bytes.indexFuncLoop] at h
  | succ fuel ih =>
    intro start i h
    by_cases hs : start < s.length
    · have hd : s.drop start = s[start] :: s.drop (start + 1) := List.drop_eq_getElem_cons hs
      have hg : s.getD start 0 = s[start] := List.getD_eq_getElem _ _ hs
      simp only [bytes.indexFuncLoop, hs, if_true, hg, hd, rune_at_front] at h
      rw [← hd] at h
      by_cases hf : (unicode.IsSpace (utf8.DecodeRune (s.drop start)).1 == false) = true
      · rw [if_pos hf] at h
        obtain rfl := Option.some.inj h
        exact ⟨hs, by simpa using hf⟩
      · rw [if_neg hf] at h
        exact ih _ i h
    · simp [bytes.indexFuncLoop, hs] at h

/-- What `TrimLeftFunc` with `unicode.IsSpace` returns is empty or starts
with a rune that is not white space. -/
theorem TrimLeftFunc_head (s : List Nat) :
    bytes.TrimLeftFunc s unicode.IsSpace = []
      ∨ unicode.IsSpace (utf8.DecodeRune (bytes.TrimLeftFunc s unicode.IsSpace)).1 = false := by
  unfold bytes.TrimLeftFunc bytes.indexFunc
  cases h : bytes.indexFuncLoop s unicode.IsSpace false s.length 0 with
  | none => left; rfl
  | some i => right; exact (indexFuncLoop_some s _ _ i h).2

/-- What `TrimFunc` with `unicode.IsSpace` returns is empty, or its first and
its last rune are not white space. -/
theorem TrimFunc_ends (s : List Nat) :
    bytes.TrimFunc s unicode.IsSpace = []
      ∨ (unicode.IsSpace (utf8.DecodeRune (bytes.TrimFunc s unicode.IsSpace)).1 = false
        ∧ unicode.IsSpace (utf8.DecodeLastRune (bytes.TrimFunc s unicode.IsSpace)).1 = false) := by
  unfold bytes.TrimFunc
  obtain ⟨e, h1, h2, -, h4⟩ := TrimRightFunc_spec (bytes.TrimLeftFunc s unicode.IsSpace)
  rw [h2]
  rcases h4 with rfl | h4
  · left; simp
  · by_cases he : e = 0
    · left; simp [he]
    · right
      refine ⟨?_, ?_⟩
      · apply IsSpace_DecodeRune_take _ _ (by omega)
        rcases TrimLeftFunc_head s with h | h
        · rw [h] at h1
          simp at h1
          omega
        · exact h
      · rw [← lastRune_eq _ _ (by omega) h1]
        exact h4

theorem trimSpaceStop_ends (c : Nat) (rest : List Nat) (hc : c < 0x80)
    (hs : bytes.asciiSpace c = false) :
    ∀ k, k ≤ (c :: rest).length →
      bytes.trimSpaceStop (c :: rest) k = []
        ∨ (unicode.IsSpace (utf8.DecodeRune (bytes.trimSpaceStop (c :: rest) k)).1 = false
          ∧ unicode.IsSpace (utf8.DecodeLastRune (bytes.trimSpaceStop (c :: rest) k)).1
              = false) := by
  intro k
  induction k with
  | zero => intro _; left; rfl
  | succ k ih =>
    intro hk
    unfold bytes.trimSpaceStop
    simp only
    split_ifs with h1 h2
    · exact TrimFunc_ends _
    · exact ih (by omega)
    · right
      refine ⟨?_, ?_⟩
      · rw [List.take_succ_cons, utf8.DecodeRune_ascii c _ hc, IsSpace_eq_asciiSpace c hc]
        exact hs
      · rw [← lastRune_eq _ _ (by omega) hk]
        have hlt : (c :: rest).getD k 0 < 0x80 := by
          simp only [utf8.RuneSelf] at h1
          omega
        simp only [lastRune, Nat.add_sub_cancel, h1, if_false]
        rw [IsSpace_eq_asciiSpace _ hlt]
        simpa using h2

/-- What `TrimSpace` returns is empty, or its first and its last rune are
not white space. -/
theorem TrimSpace_ends (s : List Nat) :
    bytes.TrimSpace s = []
      ∨ (unicode.IsSpace (utf8.DecodeRune (bytes.TrimSpace s)).1 = false
        ∧ unicode.IsSpace (utf8.DecodeLastRune (bytes.TrimSpace s)).1 = false) := by
  induction s with
  | nil => left; rfl
  | cons c rest ih =>
    unfold bytes.TrimSpace
    split_ifs with h1 h2
    · exact TrimFunc_ends _
    · exact ih
    · exact trimSpaceStop_ends c rest (by simp only [utf8.RuneSelf] at h1; omega)
        (by simpa using h2) _ (Nat.le_refl _)

/-! ## Theorems: the HTML escaper -/

namespace utf8

theorem left_le_or (a b : Nat) : a ≤ a ||| b :=
  Nat.le_of_testBit (fun i h => by simp [Nat.testBit_or, h])

theorem right_le_or (a b : Nat) : b ≤ a ||| b :=
  Nat.le_of_testBit (fun i h => by simp [Nat.testBit_or, h])

theorem rune2_ge (p0 b1 : Nat) (h1 : 0xC2 ≤ p0) (h2 : p0 < 0xE0) : 64 ≤ rune2 p0 b1 := by
  have ha : p0 &&& mask2 = p0 % 32 := Nat.and_pow_two_sub_one_eq_mod p0 5
  have hb := left_le_or ((p0 &&& mask2) <<< 6) (b1 &&& maskx)
  rw [ha, Nat.shiftLeft_eq] at hb
  unfold rune2
  rw [ha, Nat.shiftLeft_eq]
  omega

theorem rune3_ge (p0 b1 b2 : Nat) (h1 : 0xE0 ≤ p0) (h2 : p0 < 0xF0)
    (h3 : 0x80 ≤ b1) (h4 : b1 ≤ 0xBF) (h5 : p0 = 0xE0 → 0xA0 ≤ b1) : 64 ≤ rune3 p0 b1 b2 := by
  have ha : p0 &&& mask3 = p0 % 16 := Nat.and_pow_two_sub_one_eq_mod p0 4
  have hb : b1 &&& maskx = b1 % 64 := Nat.and_pow_two_sub_one_eq_mod b1 6
  have hc := left_le_or (((p0 &&& mask3) <<< 12) ||| ((b1 &&& maskx) <<< 6)) (b2 &&& maskx)
  have hd := left_le_or ((p0 &&& mask3) <<< 12) ((b1 &&& maskx) <<< 6)
  have he := right_le_or ((p0 &&& mask3) <<< 12) ((b1 &&& maskx) <<< 6)
  rw [ha, hb, Nat.shiftLeft_eq, Nat.shiftLeft_eq] at hc hd he
  unfold rune3
  rw [ha, hb, Nat.shiftLeft_eq, Nat.shiftLeft_eq]
  by_cases h : p0 = 0xE0
  · have := h5 h
    omega
  · omega

theorem rune4_ge (p0 b1 b2 b3 : Nat) (h1 : 0xF0 ≤ p0) (h2 : p0 ≤ 0xF4)
    (h3 : 0x80 ≤ b1) (h4 : b1 ≤ 0xBF) (h5 : p0 = 0xF0 → 0x90 ≤ b1) :
    64 ≤ rune4 p0 b1 b2 b3 := by
  have ha : p0 &&& mask4 = p0 % 8 := Nat.and_pow_two_sub_one_eq_mod p0 3
  have hb : b1 &&& maskx = b1 % 64 := Nat.and_pow_two_sub_one_eq_mod b1 6
  have hc := left_le_or
    (((p0 &&& mask4) <<< 18) ||| ((b1 &&& maskx) <<< 12) ||| ((b2 &&& maskx) <<< 6)) (b3 &&& maskx)
  have hc' := left_le_or
    (((p0 &&& mask4) <<< 18) ||| ((b1 &&& maskx) <<< 12)) ((b2 &&& maskx) <<< 6)
  have hd := left_le_or ((p0 &&& mask4) <<< 18) ((b1 &&& maskx) <<< 12)
  have he := right_le_or ((p0 &&& mask4) <<< 18) ((b1 &&& maskx) <<< 12)
  rw [ha, hb, Nat.shiftLeft_eq, Nat.shiftLeft_eq] at hc hc' hd he
  unfold rune4
  rw [ha, hb, Nat.shiftLeft_eq, Nat.shiftLeft_eq]
  by_cases h : p0 = 0xF0
  · have := h5 h
    omega
  · omega

/-- The lead bytes: the size and the range of the second byte, by the
value of the byte. -/
theorem first_lead (b : Nat) (hb : first b < as_) :
    ∃ sz lo hi, first b &&& 7 = sz ∧ acceptRanges (first b >>> 4) = (lo, hi)
      ∧ 2 ≤ sz ∧ sz ≤ 4 ∧ 0x80 ≤ lo ∧ hi ≤ 0xBF ∧ 0xC2 ≤ b ∧ b ≤ 0xF4
      ∧ (sz = 2 → b < 0xE0)
      ∧ (sz = 3 → 0xE0 ≤ b ∧ b < 0xF0 ∧ (b = 0xE0 → 0xA0 ≤ lo))
      ∧ (sz = 4 → 0xF0 ≤ b ∧ (b = 0xF0 → 0x90 ≤ lo)) := by
  generalize hx : first b = x at hb
  unfold first at hx
  split_ifs at hx with h1 h2 h3 h4 h5 h6 h7 h8 h9 h10 <;> subst hx
  · exact absurd hb (by decide)
  · exact absurd hb (by decide)
  · exact ⟨2, 0x80, 0xBF, by decide, by decide, by decide, by decide, by decide, by decide,
      by omega, by omega, by omega, by omega, by omega⟩
  · exact ⟨3, 0xA0, 0xBF, by decide, by decide, by decide, by decide, by decide, by decide,
      by omega, by omega, by omega, by omega, by omega⟩
  · exact ⟨3, 0x80, 0xBF, by decide, by decide, by decide, by decide, by decide, by decide,
      by omega, by omega, by omega, by omega, by omega⟩
  · exact ⟨3, 0x80, 0x9F, by decide, by decide, by decide, by decide, by decide, by decide,
      by omega, by omega, by omega, by omega, by omega⟩
  · exact ⟨3, 0x80, 0xBF, by decide, by decide, by decide, by decide, by decide, by decide,
      by omega, by omega, by omega, by omega, by omega⟩
  · exact ⟨4, 0x90, 0xBF, by decide, by decide, by decide, by decide, by decide, by decide,
      by omega, by omega, by omega, by omega, by omega⟩
  · exact ⟨4, 0x80, 0xBF, by decide, by decide, by decide, by decide, by decide, by decide,
      by omega, by omega, by omega, by omega, by omega⟩
  · exact ⟨4, 0x80, 0x8F, by decide, by decide, by decide, by decide, by decide, by decide,
      by omega, by omega, by omega, by omega, by omega⟩
  · exact absurd hb (by decide)

end utf8

/-- A rune that starts with a non-ASCII byte is 64 or more, and every byte
of its encoding is non-ASCII. -/
theorem DecodeRune_nonascii (p0 : Nat) (t : List Nat) (hp : 0x80 ≤ p0) :
    64 ≤ (utf8.DecodeRune (p0 :: t)).1
      ∧ ∀ b ∈ (p0 :: t).take (utf8.DecodeRune (p0 :: t)).2, 0x80 ≤ b := by
  rcases utf8.first_class p0 with ⟨h1, -⟩ | ⟨-, h1⟩ | ⟨_, _, _, -, h0, -⟩
  · omega
  · rw [utf8.DecodeRune_xx p0 t h1]
    exact ⟨by decide, by simpa using hp⟩
  · obtain ⟨sz, lo, hi, hsz, hacc, h2, h4, hlo, hhi, hc2, hf4, r2, r3, r4⟩ := utf8.first_lead p0 h0
    rw [utf8.DecodeRune_lead p0 t sz lo hi h0 hsz hacc h2 h4]
    have herr : 64 ≤ utf8.RuneError := by decide
    match t with
    | [] => exact ⟨herr, by simpa using hp⟩
    | b1 :: t1 =>
      simp only
      by_cases hb1 : b1 < lo ∨ hi < b1
      · rw [if_pos hb1]
        exact ⟨herr, by simpa using hp⟩
      · rw [if_neg hb1]
        by_cases hs2 : sz = 2
        · rw [if_pos hs2]
          refine ⟨utf8.rune2_ge p0 b1 hc2 (r2 hs2), ?_⟩
          intro b hb
          simp only [List.take_succ_cons, List.take_zero, List.mem_cons, List.mem_nil_iff,
            or_false] at hb
          rcases hb with rfl | rfl <;> omega
        · rw [if_neg hs2]
          match t1 with
          | [] => exact ⟨herr, by simpa using hp⟩
          | b2 :: t2 =>
            simp only
            by_cases hb2 : b2 < 0x80 ∨ 0xBF < b2
            · rw [if_pos hb2]
              exact ⟨herr, by simpa using hp⟩
            · rw [if_neg hb2]
              by_cases hs3 : sz = 3
              · rw [if_pos hs3]
                obtain ⟨q1, q2, q3⟩ := r3 hs3
                refine ⟨utf8.rune3_ge p0 b1 b2 q1 q2 (by omega) (by omega)
                  (fun h => by have := q3 h; omega), ?_⟩
                intro b hb
                simp only [List.take_succ_cons, List.take_zero, List.mem_cons, List.mem_nil_iff,
                  or_false] at hb
                rcases hb with rfl | rfl | rfl <;> omega
              · rw [if_neg hs3]
                have hs4 : sz = 4 := by omega
                obtain ⟨q1, q3⟩ := r4 hs4
                match t2 with
                | [] => exact ⟨herr, by simpa using hp⟩
                | b3 :: t3 =>
                  simp only
                  by_cases hb3 : b3 < 0x80 ∨ 0xBF < b3
                  · rw [if_pos hb3]
                    exact ⟨herr, by simpa using hp⟩
                  · rw [if_neg hb3]
                    refine ⟨utf8.rune4_ge p0 b1 b2 b3 q1 hf4 (by omega) (by omega)
                      (fun h => by have := q3 h; omega), ?_⟩
                    intro b hb
                    simp only [List.take_succ_cons, List.take_zero, List.mem_cons,
                      List.mem_nil_iff, or_false] at hb
                    rcases hb with rfl | rfl | rfl | rfl <;> omega

namespace template

theorem htmlReplacementTable_of_ge (r : Nat) (h : 63 ≤ r) : htmlReplacementTable r = [] := by
  unfold htmlReplacementTable
  split <;> first | rfl | omega

theorem escapeByte_of_ge (b : Nat) (h : 63 ≤ b) : escapeByte b = [b] := by
  simp [escapeByte, htmlReplacementTable_of_ge b h]

theorem flatMap_escapeByte_of_ge (l : List Nat) (h : ∀ b ∈ l, 0x80 ≤ b) :
    l.flatMap escapeByte = l := by
  induction l with
  | nil => rfl
  | cons b t ih =>
    rw [List.flatMap_cons, escapeByte_of_ge b (by have := h b (by simp); omega),
      ih (fun x hx => h x (by simp [hx]))]
    rfl

theorem htmlReplacerLoop_eq : ∀ fuel s, s.length ≤ fuel →
    htmlReplacerLoop fuel s = s.flatMap escapeByte := by
  intro fuel
  induction fuel with
  | zero =>
    intro s hs
    have : s = [] := List.length_eq_zero.mp (by omega)
    subst this
    rfl
  | succ fuel ih =>
    intro s hs
    match s, hs with
    | [], _ => rfl
    | c :: rest, hs =>
      simp only [List.length_cons] at hs
      by_cases hc : c < 0x80
      · simp only [htmlReplacerLoop, utf8.DecodeRune_ascii c rest hc, List.drop_succ_cons,
          List.drop_zero, List.take_succ_cons, List.take_zero, List.flatMap_cons]
        rw [ih rest (by omega)]
        by_cases ht : htmlReplacementTable c = []
        · simp [ht, escapeByte]
        · have hlt : c < htmlReplacementTableLen := by
            by_contra hge
            exact ht (htmlReplacementTable_of_ge c (by simp [htmlReplacementTableLen] at hge; omega))
          simp [ht, hlt, escapeByte]
      · obtain ⟨h1, h2⟩ := DecodeRune_nonascii c rest (by omega)
        have hw := utf8.DecodeRune_width_pos c rest
        have hnot : ¬ ((utf8.DecodeRune (c :: rest)).1 < htmlReplacementTableLen
            ∧ htmlReplacementTable (utf8.DecodeRune (c :: rest)).1 ≠ []) := by
          intro hh
          have := hh.1
          simp only [htmlReplacementTableLen] at this
          omega
        simp only [htmlReplacerLoop]
        rw [if_neg hnot, ih _ (by simp only [List.length_drop, List.length_cons]; omega)]
        conv_rhs => rw [← List.take_append_drop (utf8.DecodeRune (c :: rest)).2 (c :: rest)]
        rw [List.flatMap_append, flatMap_escapeByte_of_ge _ h2]

/-- The escaper works byte by byte. -/
theorem htmlEscaper_eq (s : List Nat) : htmlEscaper s = s.flatMap escapeByte :=
  htmlReplacerLoop_eq s.length s (Nat.le_refl _)

end template

namespace template

theorem escapeByte_no_lt (b : Nat) : 0x3C ∉ escapeByte b := by
  by_cases h : 63 ≤ b
  · rw [escapeByte_of_ge b h]
    simp only [List.mem_singleton]
    omega
  · have hb : b < 63 := by omega
    interval_cases b <;> decide

theorem escapeByte_ref_or_no_amp (b : Nat) : escapeByte b ∈ charRefs ∨ 0x26 ∉ escapeByte b := by
  by_cases h : 63 ≤ b
  · right
    rw [escapeByte_of_ge b h]
    simp only [List.mem_singleton]
    omega
  · have hb : b < 63 := by omega
    interval_cases b <;> decide

theorem charRefs_head (ref : List Nat) (h : ref ∈ charRefs) :
    ∃ tl, ref = 0x26 :: tl ∧ 0x26 ∉ tl := by
  simp only [charRefs, List.mem_cons, List.mem_singleton, List.mem_nil_iff, or_false] at h
  rcases h with rfl | rfl | rfl | rfl | rfl | rfl <;> exact ⟨_, rfl, by decide⟩

/-- In escaped text every `&` starts one of the character references. -/
theorem flatMap_escapeByte_amp (T : List Nat) :
    ∀ pre post, T.flatMap escapeByte = pre ++ 0x26 :: post →
      ∃ ref ∈ charRefs, ∃ post', 0x26 :: post = ref ++ post' := by
  induction T with
  | nil =>
    intro pre post h
    simp at h
  | cons b T ih =>
    intro pre post h
    rw [List.flatMap_cons, List.append_eq_append_iff] at h
    rcases h with ⟨a', -, h2⟩ | ⟨c', h1, h2⟩
    · exact ih a' post h2
    · match c', h1, h2 with
      | [], _, h2 => exact ih [] post (by simpa using h2.symm)
      | x :: c'', h1, h2 =>
        rw [List.cons_append] at h2
        obtain ⟨hx, hpost⟩ := List.cons.inj h2
        subst hx
        rcases escapeByte_ref_or_no_amp b with hr | hn
        · obtain ⟨tl, htl, hno⟩ := charRefs_head _ hr
          have hpre : pre = [] := by
            match pre, h1 with
            | [], _ => rfl
            | y :: pre', h1 =>
              rw [htl, List.cons_append] at h1
              obtain ⟨-, h3⟩ := List.cons.inj h1
              exact absurd (by rw [h3]; simp) hno
          subst hpre
          refine ⟨escapeByte b, hr, T.flatMap escapeByte, ?_⟩
          rw [h1, List.nil_append, List.cons_append, hpost]
        · exact absurd (by rw [h1]; simp) hn

end template

/-! ## Theorems: the block parser -/

theorem marker_eq : AsideBlockParser.marker = [0x3A, 0x3A, 0x3A] := by decide

theorem takeLine_length_le (l : List Nat) : (takeLine l).length ≤ l.length := by
  induction l with
  | nil => simp [takeLine]
  | cons c rest ih =>
    unfold takeLine
    split
    · simp
    · simp only [List.length_cons]
      omega

theorem takeLine_eq_take (l : List Nat) : takeLine l = l.take (takeLine l).length := by
  induction l with
  | nil => simp [takeLine]
  | cons c rest ih =>
    unfold takeLine
    split
    · simp
    · simp only [List.length_cons, List.take_succ_cons]
      rw [← ih]

/-- The current line lies inside the unread part of the source. -/
theorem PeekLine_length_le (r : Reader) : r.pos + r.PeekLine.length ≤ max r.pos r.source.length := by
  have h := takeLine_length_le (r.source.drop r.pos)
  simp only [List.length_drop] at h
  unfold Reader.PeekLine
  omega

/-- Advancing by the length of the current line moves the position by
exactly that many bytes. -/
theorem Advance_PeekLine_pos (r : Reader) (h : 0 < r.PeekLine.length) :
    (r.Advance r.PeekLine.length).pos = r.pos + r.PeekLine.length := by
  have h1 := takeLine_length_le (r.source.drop r.pos)
  simp only [List.length_drop] at h1
  unfold Reader.PeekLine at h ⊢
  simp only [Reader.Advance]
  omega

/-- The bytes between the old and the new position are the current line. -/
theorem PeekLine_eq_take (r : Reader) :
    (r.source.drop r.pos).take r.PeekLine.length = r.PeekLine := by
  unfold Reader.PeekLine
  exact (takeLine_eq_take _).symm

theorem Open_of_marker (reader : Reader) (h : 3 ≤ reader.PeekLine.length)
    (hm : reader.PeekLine.take 3 = AsideBlockParser.marker) :
    AsideBlockParser.Open reader
      = .ok (some { Title := bytes.TrimSpace (reader.PeekLine.drop 3) }, parser.HasChildren,
          reader.Advance reader.PeekLine.length) := by
  have h1 : ¬ reader.PeekLine.length < 3 := by omega
  simp only [AsideBlockParser.Open, h1, sliceTo, sliceFrom, h, bytes.Equal, hm, if_true, if_false,
    bind, Except.bind, beq_self_eq_true, Bool.not_true]
  rfl

theorem Open_of_not_marker (reader : Reader)
    (h : ¬ (3 ≤ reader.PeekLine.length ∧ reader.PeekLine.take 3 = AsideBlockParser.marker)) :
    AsideBlockParser.Open reader = .ok (none, parser.NoChildren, reader) := by
  by_cases h3 : reader.PeekLine.length < 3
  · simp [AsideBlockParser.Open, h3]
  · have h4 : 3 ≤ reader.PeekLine.length := by omega
    have hm : ¬ reader.PeekLine.take 3 = AsideBlockParser.marker := fun hm => h ⟨h4, hm⟩
    simp [AsideBlockParser.Open, h3, sliceTo, h4, bytes.Equal, hm, bind, Except.bind]

theorem Continue_of_marker (node : AsideBlockNode) (reader : Reader)
    (h : 3 ≤ reader.PeekLine.length) (hm : reader.PeekLine.take 3 = AsideBlockParser.marker) :
    AsideBlockParser.Continue node reader
      = .ok (parser.Close, reader.Advance reader.PeekLine.length) := by
  simp [AsideBlockParser.Continue, sliceTo, h, bytes.Equal, hm, bind, Except.bind]

theorem Continue_of_not_marker (node : AsideBlockNode) (reader : Reader)
    (h : ¬ (3 ≤ reader.PeekLine.length ∧ reader.PeekLine.take 3 = AsideBlockParser.marker)) :
    AsideBlockParser.Continue node reader
      = .ok (parser.Continue ||| parser.HasChildren, reader) := by
  by_cases h3 : 3 ≤ reader.PeekLine.length
  · have hm : ¬ reader.PeekLine.take 3 = AsideBlockParser.marker := fun hm => h ⟨h3, hm⟩
    simp [AsideBlockParser.Continue, sliceTo, h3, bytes.Equal, hm, bind, Except.bind]
  · simp [AsideBlockParser.Continue, h3]

/-- C1: `Open` returns a node exactly when the current line has at least 3
bytes and its first 3 bytes are the marker `:::`; on every other line, and
so on every line shorter than 3 bytes (the empty line included), it returns
no node with `NoChildren` and the reader it was given, nothing consumed. -/
theorem C1_Open_node_iff_marker (reader : Reader) :
    ((∃ node st r, AsideBlockParser.Open reader = .ok (some node, st, r))
        ↔ (3 ≤ reader.PeekLine.length ∧ reader.PeekLine.take 3 = ascii ":::"))
    ∧ (¬ (3 ≤ reader.PeekLine.length ∧ reader.PeekLine.take 3 = ascii ":::")
        → AsideBlockParser.Open reader = .ok (none, parser.NoChildren, reader))
    ∧ (reader.PeekLine.length < 3
        → AsideBlockParser.Open reader = .ok (none, parser.NoChildren, reader)) := by
  refine ⟨⟨?_, ?_⟩, Open_of_not_marker reader, ?_⟩
  · rintro ⟨node, st, r, h⟩
    by_contra hn
    rw [Open_of_not_marker reader hn] at h
    cases h
  · rintro ⟨h, hm⟩
    exact ⟨_, _, _, Open_of_marker reader h hm⟩
  · intro h
    exact Open_of_not_marker reader (fun hc => by omega)

/-- C2: on a line whose first 3 bytes are `:::`, `Open` returns `HasChildren`
and a node, moves the reader on by exactly the length of the line (the bytes
it passes are the line itself, nothing beyond it), and the node's `Title` is
`bytes.TrimSpace` of the bytes after the marker: `line[3:]` is
`ws1 ++ Title ++ ws2` with `ws1` and `ws2` white space only, and the `Title`
is empty or neither its first nor its last rune is white space. -/
theorem C2_Open_consumes_line_and_trims_title (reader : Reader)
    (h : 3 ≤ reader.PeekLine.length) (hm : reader.PeekLine.take 3 = ascii ":::") :
    ∃ node r, AsideBlockParser.Open reader = .ok (some node, parser.HasChildren, r)
      ∧ r.source = reader.source
      ∧ r.pos = reader.pos + reader.PeekLine.length
      ∧ (reader.source.drop reader.pos).take (r.pos - reader.pos) = reader.PeekLine
      ∧ node.Title = bytes.TrimSpace (reader.PeekLine.drop 3)
      ∧ (∃ ws1 ws2, isWhiteSpace ws1 = true ∧ isWhiteSpace ws2 = true
          ∧ reader.PeekLine.drop 3 = ws1 ++ node.Title ++ ws2)
      ∧ (node.Title = []
          ∨ (unicode.IsSpace (utf8.DecodeRune node.Title).1 = false
            ∧ unicode.IsSpace (utf8.DecodeLastRune node.Title).1 = false)) := by
  obtain ⟨ws1, ws2, h1, h2, he⟩ := TrimSpace_decomp (reader.PeekLine.drop 3)
  refine ⟨_, _, Open_of_marker reader h hm, rfl, Advance_PeekLine_pos reader (by omega), ?_, rfl,
    ⟨ws1, ws2, isWhiteSpace_of_WhiteSpace _ h1, isWhiteSpace_of_WhiteSpace _ h2, he⟩,
    TrimSpace_ends _⟩
  rw [Advance_PeekLine_pos reader (by omega), Nat.add_sub_cancel_left]
  exact PeekLine_eq_take reader

/-- Witness of C2 on the first line of `:::  Note \nHello\n:::`. -/
theorem C2_Open_consumes_line_and_trims_title_witness :
    ∃ node r, AsideBlockParser.Open ⟨ascii ":::  Note \nHello\n:::", 0⟩
        = .ok (some node, parser.HasChildren, r)
      ∧ r.source = ascii ":::  Note \nHello\n:::"
      ∧ r.pos = 0 + (Reader.PeekLine ⟨ascii ":::  Note \nHello\n:::", 0⟩).length
      ∧ ((ascii ":::  Note \nHello\n:::").drop 0).take (r.pos - 0)
          = Reader.PeekLine ⟨ascii ":::  Note \nHello\n:::", 0⟩
      ∧ node.Title = bytes.TrimSpace ((Reader.PeekLine ⟨ascii ":::  Note \nHello\n:::", 0⟩).drop 3)
      ∧ (∃ ws1 ws2, isWhiteSpace ws1 = true ∧ isWhiteSpace ws2 = true
          ∧ (Reader.PeekLine ⟨ascii ":::  Note \nHello\n:::", 0⟩).drop 3
              = ws1 ++ node.Title ++ ws2)
      ∧ (node.Title = []
          ∨ (unicode.IsSpace (utf8.DecodeRune node.Title).1 = false
            ∧ unicode.IsSpace (utf8.DecodeLastRune node.Title).1 = false)) :=
  C2_Open_consumes_line_and_trims_title ⟨ascii ":::  Note \nHello\n:::", 0⟩ (by decide) (by decide)

/-- C3: while a node is open, a line of at least 3 bytes whose first 3 bytes
are `:::` makes `Continue` return `Close`, whatever follows the marker, and
the reader moves on by exactly the length of the line: the bytes it passes
are the line itself. -/
theorem C3_Continue_closes_on_marker (node : AsideBlockNode) (reader : Reader)
    (h : 3 ≤ reader.PeekLine.length) (hm : reader.PeekLine.take 3 = ascii ":::") :
    ∃ r, AsideBlockParser.Continue node reader = .ok (parser.Close, r)
      ∧ r.source = reader.source
      ∧ r.pos = reader.pos + reader.PeekLine.length
      ∧ (reader.source.drop reader.pos).take (r.pos - reader.pos) = reader.PeekLine := by
  refine ⟨_, Continue_of_marker node reader h hm, rfl, Advance_PeekLine_pos reader (by omega), ?_⟩
  rw [Advance_PeekLine_pos reader (by omega), Nat.add_sub_cancel_left]
  exact PeekLine_eq_take reader

/-- Witness of C3 on the close line `:::ignored` of `:::Note\nHello\n:::ignored`. -/
theorem C3_Continue_closes_on_marker_witness :
    ∃ r, AsideBlockParser.Continue ⟨ascii "Note"⟩ ⟨ascii ":::Note\nHello\n:::ignored", 14⟩
        = .ok (parser.Close, r)
      ∧ r.source = ascii ":::Note\nHello\n:::ignored"
      ∧ r.pos = 14 + (Reader.PeekLine ⟨ascii ":::Note\nHello\n:::ignored", 14⟩).length
      ∧ ((ascii ":::Note\nHello\n:::ignored").drop 14).take (r.pos - 14)
          = Reader.PeekLine ⟨ascii ":::Note\nHello\n:::ignored", 14⟩ :=
  C3_Continue_closes_on_marker ⟨ascii "Note"⟩ ⟨ascii ":::Note\nHello\n:::ignored", 14⟩
    (by decide) (by decide)

/-- C4: while a node is open, a line that does not start with the 3 bytes
`:::` (the empty line, a blank line, `:` and `::` included) makes `Continue`
return exactly `Continue | HasChildren` and the reader it was given: the
line stays unconsumed. -/
theorem C4_Continue_passes_other_lines (node : AsideBlockNode) (reader : Reader)
    (h : ¬ (3 ≤ reader.PeekLine.length ∧ reader.PeekLine.take 3 = ascii ":::")) :
    AsideBlockParser.Continue node reader
      = .ok (parser.Continue ||| parser.HasChildren, reader) :=
  Continue_of_not_marker node reader h

/-- Witness of C4 on the line `::` (the second line of `:::Note\n::\n:::`). -/
theorem C4_Continue_passes_other_lines_witness :
    AsideBlockParser.Continue ⟨ascii "Note"⟩ ⟨ascii ":::Note\n::\n:::", 8⟩
      = .ok (parser.Continue ||| parser.HasChildren, ⟨ascii ":::Note\n::\n:::", 8⟩) :=
  C4_Continue_passes_other_lines ⟨ascii "Note"⟩ ⟨ascii ":::Note\n::\n:::", 8⟩ (by decide)

/-- C10: parsing is total. For every reader state, `Open` and `Continue`
return normally (no slice goes out of range: `line[:3]` is reached only with
`len(line) >= 3`), `Open` with `(nil, NoChildren)` or `(node, HasChildren)`
and `Continue` with `Close` or `Continue | HasChildren`. -/
theorem C10_parsing_total (node : AsideBlockNode) (reader : Reader) :
    (AsideBlockParser.Open reader = .ok (none, parser.NoChildren, reader)
        ∨ ∃ n r, AsideBlockParser.Open reader = .ok (some n, parser.HasChildren, r))
    ∧ (AsideBlockParser.Continue node reader
          = .ok (parser.Continue ||| parser.HasChildren, reader)
        ∨ ∃ r, AsideBlockParser.Continue node reader = .ok (parser.Close, r)) := by
  by_cases h : 3 ≤ reader.PeekLine.length ∧ reader.PeekLine.take 3 = AsideBlockParser.marker
  · exact ⟨Or.inr ⟨_, _, Open_of_marker reader h.1 h.2⟩,
      Or.inr ⟨_, Continue_of_marker node reader h.1 h.2⟩⟩
  · exact ⟨Or.inl (Open_of_not_marker reader h), Or.inl (Continue_of_not_marker node reader h)⟩

/-! ## Theorems: the renderer -/

theorem Parse_templateText :
    template.Parse AsideBlockRenderer.templateText
      = .ok [template.Node.text (ascii "<aside><h3>"), template.Node.dot,
          template.Node.text (ascii "</h3>")] := by
  decide

/-- On entry, with a writer that never fails, `render` appends the opening
tags around the escaped title. -/
theorem render_enter (out T : List Nat) :
    AsideBlockRenderer.render htmlTemplate ⟨out, none⟩ ⟨T⟩ true
      = (⟨out ++ ascii "<aside><h3>" ++ template.htmlEscaper T ++ ascii "</h3>", none⟩,
          WalkStatus.WalkContinue, none) := by
  simp only [AsideBlockRenderer.render, htmlTemplate, Parse_templateText, template.Execute,
    BufWriter.Write, if_true]

/-- What the escaper writes for one byte, spelled out: the replacement
character for the byte 0, a character reference for each of the double
quote, `&`, the apostrophe, `+`, `<` and `>`, and the byte itself
otherwise. -/
theorem escapeByte_table (b : Nat) :
    template.escapeByte b
      = if b = 0 then [0xEF, 0xBF, 0xBD]
        else if b = 0x22 then ascii "&#34;"
        else if b = 0x26 then ascii "&amp;"
        else if b = 0x27 then ascii "&#39;"
        else if b = 0x2B then ascii "&#43;"
        else if b = 0x3C then ascii "&lt;"
        else if b = 0x3E then ascii "&gt;"
        else [b] := by
  by_cases h0 : b = 0
  · subst h0; decide
  by_cases h1 : b = 0x22
  · subst h1; decide
  by_cases h2 : b = 0x26
  · subst h2; decide
  by_cases h3 : b = 0x27
  · subst h3; decide
  by_cases h4 : b = 0x2B
  · subst h4; decide
  by_cases h5 : b = 0x3C
  · subst h5; decide
  by_cases h6 : b = 0x3E
  · subst h6; decide
  rw [if_neg h0, if_neg h1, if_neg h2, if_neg h3, if_neg h4, if_neg h5, if_neg h6]
  have ht : template.htmlReplacementTable b = [] := by
    unfold template.htmlReplacementTable
    split <;> first | rfl | omega
  rw [template.escapeByte, if_pos ht]

/-- C5: with a writer that does not fail, `render` on enter writes exactly
`<aside><h3>`, the escaped title and `</h3>`, and returns `WalkContinue`
with no error; on exit it writes exactly `</aside>` and returns
`WalkContinue` with no error. Whatever bytes `C` the general renderer writes
for the children in between, the output for the node is
`<aside><h3>` ++ escaped title ++ `</h3>` ++ `C` ++ `</aside>`: `render`
adds nothing for the children. The escaped title is the title with each byte
replaced as the last part spells out: the replacement character for the byte
0, a character reference for each of the double quote, `&`, the apostrophe,
`+`, `<` and `>`, every other byte as it is. -/
theorem C5_render_output (out T C : List Nat) :
    AsideBlockRenderer.render htmlTemplate ⟨out, none⟩ ⟨T⟩ true
        = (⟨out ++ ascii "<aside><h3>" ++ T.flatMap template.escapeByte ++ ascii "</h3>", none⟩,
            WalkStatus.WalkContinue, none)
      ∧ AsideBlockRenderer.render htmlTemplate ⟨out, none⟩ ⟨T⟩ false
        = (⟨out ++ ascii "</aside>", none⟩, WalkStatus.WalkContinue, none)
      ∧ AsideBlockRenderer.render htmlTemplate
          ((AsideBlockRenderer.render htmlTemplate ⟨out, none⟩ ⟨T⟩ true).1.WriteString C).1
          ⟨T⟩ false
        = (⟨out ++ ascii "<aside><h3>" ++ T.flatMap template.escapeByte ++ ascii "</h3>" ++ C
              ++ ascii "</aside>", none⟩, WalkStatus.WalkContinue, none)
      ∧ ∀ b, template.escapeByte b
          = if b = 0 then [0xEF, 0xBF, 0xBD]
            else if b = 0x22 then ascii "&#34;"
            else if b = 0x26 then ascii "&amp;"
            else if b = 0x27 then ascii "&#39;"
            else if b = 0x2B then ascii "&#43;"
            else if b = 0x3C then ascii "&lt;"
            else if b = 0x3E then ascii "&gt;"
            else [b] := by
  refine ⟨?_, rfl, ?_, escapeByte_table⟩
  · rw [render_enter, template.htmlEscaper_eq]
  · rw [render_enter, template.htmlEscaper_eq]
    rfl

/-- C6: the text `render` emits between `<aside><h3>` and `</h3>` is the
title escaped byte by byte, `<` as `&lt;` and `&` as `&amp;`; it contains no
`<`, and every `&` in it starts one of the character references of the
escaper. -/
theorem C6_title_escaped (out T : List Nat) :
    ∃ e, (AsideBlockRenderer.render htmlTemplate ⟨out, none⟩ ⟨T⟩ true).1.out
          = out ++ ascii "<aside><h3>" ++ e ++ ascii "</h3>"
      ∧ e = T.flatMap template.escapeByte
      ∧ template.escapeByte 0x3C = ascii "&lt;"
      ∧ template.escapeByte 0x26 = ascii "&amp;"
      ∧ 0x3C ∉ e
      ∧ ∀ pre post, e = pre ++ 0x26 :: post →
          ∃ ref ∈ template.charRefs, ∃ post', 0x26 :: post = ref ++ post' := by
  refine ⟨template.htmlEscaper T, by rw [render_enter], template.htmlEscaper_eq T,
    by decide, by decide, ?_, ?_⟩
  · rw [template.htmlEscaper_eq, List.mem_flatMap]
    rintro ⟨b, -, hb⟩
    exact template.escapeByte_no_lt b hb
  · rw [template.htmlEscaper_eq]
    exact template.flatMap_escapeByte_amp T

/-- C9: on entry, a failure of the template parse or of the template
execution makes `render` return `WalkStop` with an error that wraps the
cause; `render` returns `WalkContinue` only with no error, and an error only
with `WalkStop`. -/
theorem C9_render_failure_stops (lib : TemplateLib) (w : BufWriter) (node : AsideBlockNode) :
    (∀ err, lib.Parse AsideBlockRenderer.templateText = .error err →
        AsideBlockRenderer.render lib w node true
          = (w, WalkStatus.WalkStop, some (Error.wrap "parsing aside template" err)))
      ∧ (∀ tpl w1 err, lib.Parse AsideBlockRenderer.templateText = .ok tpl →
          lib.Execute tpl w node.Title = (w1, some err) →
          AsideBlockRenderer.render lib w node true
            = (w1, WalkStatus.WalkStop, some (Error.wrap "executing aside template" err)))
      ∧ (∀ entering,
          (AsideBlockRenderer.render lib w node entering).2.1 = WalkStatus.WalkContinue
            ↔ (AsideBlockRenderer.render lib w node entering).2.2 = none)
      ∧ (∀ entering,
          (AsideBlockRenderer.render lib w node entering).2.1 = WalkStatus.WalkStop
            ↔ (AsideBlockRenderer.render lib w node entering).2.2 ≠ none) := by
  refine ⟨?_, ?_, ?_, ?_⟩
  · intro err h
    simp [AsideBlockRenderer.render, h]
  · intro tpl w1 err h1 h2
    simp [AsideBlockRenderer.render, h1, h2]
  · intro entering
    cases entering
    · simp [AsideBlockRenderer.render]
    · simp only [AsideBlockRenderer.render, if_true]
      cases lib.Parse AsideBlockRenderer.templateText with
      | error e => simp
      | ok tpl =>
        simp only
        rcases lib.Execute tpl w node.Title with ⟨w1, _ | e⟩ <;> simp
  · intro entering
    cases entering
    · simp [AsideBlockRenderer.render]
    · simp only [AsideBlockRenderer.render, if_true]
      cases lib.Parse AsideBlockRenderer.templateText with
      | error e => simp
      | ok tpl =>
        simp only
        rcases lib.Execute tpl w node.Title with ⟨w1, _ | e⟩ <;> simp

/-- Witness of C9: a template library whose parser fails, and the modelled
library with a writer that accepts 5 more bytes. -/
theorem C9_render_failure_stops_witness :
    AsideBlockRenderer.render
        { Parse := fun _ => .error (Error.template "unclosed action"), Execute := template.Execute }
        ⟨[], none⟩ ⟨ascii "Note"⟩ true
      = (⟨[], none⟩, WalkStatus.WalkStop,
          some (Error.wrap "parsing aside template" (Error.template "unclosed action")))
    ∧ AsideBlockRenderer.render htmlTemplate ⟨[], some 5⟩ ⟨ascii "Note"⟩ true
      = (⟨ascii "<asid", some 0⟩, WalkStatus.WalkStop,
          some (Error.wrap "executing aside template" Error.write)) :=
  ⟨(C9_render_failure_stops _ ⟨[], none⟩ ⟨ascii "Note"⟩).1 _ rfl,
    (C9_render_failure_stops htmlTemplate ⟨[], some 5⟩ ⟨ascii "Note"⟩).2.1 _ _ _
      Parse_templateText (by decide)⟩

/-! ## Theorems: the engine -/

namespace Engine

theorem Close_and_Continue : parser.Close &&& parser.Continue = 0 := by decide

theorem Continue_and_Continue :
    (parser.Continue ||| parser.HasChildren) &&& parser.Continue ≠ 0 := by decide

end Engine

/-- C7: on the input `:::Note\nHello\n:::`, `Open` on the first line gives a
node titled `Note` and consumes the line with its newline, so that in the
same pass the engine takes the second line, where the reader then stands, as
the first content of the block: after the pass the paragraph `Hello` is
being read inside the open block and the reader is at the third line.
`Continue` on the third line closes the block. The engine's tree is one
aside block titled `Note` with one child, the paragraph `Hello`, and it
renders as `<aside><h3>Note</h3><p>Hello</p>`, a newline, `</aside>`. -/
theorem C7_note_hello :
    AsideBlockParser.Open ⟨ascii ":::Note\nHello\n:::", 0⟩
        = .ok (some ⟨ascii "Note"⟩, parser.HasChildren, ⟨ascii ":::Note\nHello\n:::", 8⟩)
      ∧ (Engine.step (Engine.init (ascii ":::Note\nHello\n:::"))).map
          (fun e => (e.reader.pos, e.done, e.opened, e.paragraph))
        = .ok (14, [], [(⟨ascii "Note"⟩, [])], some (ascii "Hello"))
      ∧ AsideBlockParser.Continue ⟨ascii "Note"⟩ ⟨ascii ":::Note\nHello\n:::", 14⟩
        = .ok (parser.Close, ⟨ascii ":::Note\nHello\n:::", 17⟩)
      ∧ Engine.parse (ascii ":::Note\nHello\n:::")
        = .ok [Block.AsideBlock ⟨ascii "Note"⟩ [Block.Paragraph (ascii "Hello")]]
      ∧ renderDocument htmlTemplate
          [Block.AsideBlock ⟨ascii "Note"⟩ [Block.Paragraph (ascii "Hello")]]
        = some (ascii "<aside><h3>Note</h3><p>Hello</p>\n</aside>") :=
  ⟨by decide, by rfl, by decide, by rfl, by rfl⟩

/-- C7, the counterexample: the tree of `:::Note\nHello\n:::` does not render
as `<aside><h3>Note</h3><p>Hello</p></aside>`; the base renderer ends the
paragraph with a newline after `</p>`. -/
theorem C7_claimed_html_counterexample :
    Engine.parse (ascii ":::Note\nHello\n:::")
        = .ok [Block.AsideBlock ⟨ascii "Note"⟩ [Block.Paragraph (ascii "Hello")]]
      ∧ renderDocument htmlTemplate
          [Block.AsideBlock ⟨ascii "Note"⟩ [Block.Paragraph (ascii "Hello")]]
        ≠ some (ascii "<aside><h3>Note</h3><p>Hello</p></aside>") :=
  ⟨by rfl, by decide⟩

/-- C8: aside blocks do nest. On `:::First\n:::Second\n`, `Open` consumes the
first line with its newline, the engine looks for the block's first child on
the line the reader then stands on, and `Open` takes `:::Second` there: after
the first pass two aside blocks are open, the second inside the first, and
`Continue` was never called on the second line. The document is the block
`First` with the block `Second` as its child. And on
`:::Note\nHello\n:::\nAfter\n` the third line does not close the block:
`Continue` consumes it with its newline and signals `Close`, the engine
finds on the fourth line the paragraph going on, and the block stays open to
the end of the input with the paragraph `Hello\nAfter`. -/
theorem C8_second_marker_nests :
    (Engine.step (Engine.init (ascii ":::First\n:::Second\n"))).map
        (fun e => (e.reader.pos, e.done, e.opened, e.paragraph))
      = .ok (19, [], [(⟨ascii "Second"⟩, []), (⟨ascii "First"⟩, [])], none)
    ∧ Engine.parse (ascii ":::First\n:::Second\n")
      = .ok [Block.AsideBlock ⟨ascii "First"⟩ [Block.AsideBlock ⟨ascii "Second"⟩ []]]
    ∧ renderDocument htmlTemplate
        [Block.AsideBlock ⟨ascii "First"⟩ [Block.AsideBlock ⟨ascii "Second"⟩ []]]
      = some (ascii "<aside><h3>First</h3><aside><h3>Second</h3></aside></aside>")
    ∧ Engine.parse (ascii ":::Note\nHello\n:::\nAfter\n")
      = .ok [Block.AsideBlock ⟨ascii "Note"⟩ [Block.Paragraph (ascii "Hello\nAfter")]] :=
  ⟨by rfl, by rfl, by rfl, by rfl⟩

/-- A marker line after a blank line inside the block does close it: the
documents of `:::Note\nHello\n\n:::\nAfter\n` and of `:::Note\nHello\n:::`. -/
theorem marker_closes_example :
    Engine.parse (ascii ":::Note\nHello\n\n:::\nAfter\n")
        = .ok [Block.AsideBlock ⟨ascii "Note"⟩ [Block.Paragraph (ascii "Hello")],
            Block.Paragraph (ascii "After")]
      ∧ Engine.parse (ascii ":::Note\nHello\n:::ignored")
        = .ok [Block.AsideBlock ⟨ascii "Note"⟩ [Block.Paragraph (ascii "Hello")]] :=
  ⟨by rfl, by rfl⟩

/-! ## Theorems: the marker at the start of the line -/

/-- A line that does not begin with `:` is not a marker line. -/
theorem not_marker_of_head (line : List Nat) (c : Nat) (rest : List Nat)
    (hl : line = c :: rest) (hc : c ≠ 0x3A) :
    ¬ (3 ≤ line.length ∧ line.take 3 = AsideBlockParser.marker) := by
  rintro ⟨-, hm⟩
  rw [hl, marker_eq] at hm
  match rest, hm with
  | [], hm => simp at hm
  | [_], hm => simp at hm
  | _ :: _ :: _, hm =>
    simp only [List.take_succ_cons, List.take_zero, List.cons.injEq] at hm
    exact hc hm.1

/-- A marker line begins with `:`. -/
theorem head_of_marker (line : List Nat) (hm : line.take 3 = AsideBlockParser.marker) :
    line.head? = some 0x3A := by
  rw [marker_eq] at hm
  match line, hm with
  | [], hm => simp at hm
  | c :: rest, hm =>
    by_contra hne
    have hc : c ≠ 0x3A := by simpa using hne
    match rest, hm with
    | [], hm => simp at hm
    | [_], hm => simp at hm
    | _ :: _ :: _, hm =>
      simp only [List.take_succ_cons, List.take_zero, List.cons.injEq] at hm
      exact hc hm.1

theorem asciiSpace_ne_colon (c : Nat) (h : bytes.asciiSpace c = true) : c ≠ 0x3A := by
  rintro rfl
  simp [bytes.asciiSpace] at h

/-- C14: a marker line indented by 4 or more spaces is not recognized:
`CanAcceptIndentedLine` is false, and on every line of 4 or more spaces
followed by `:::` and anything, `Open` returns no node, `NoChildren` and the
reader it was given, nothing consumed. -/
theorem C14_indented_marker_not_opened (reader : Reader) (n : Nat) (rest : List Nat)
    (hn : 4 ≤ n) (hl : reader.PeekLine = List.replicate n 0x20 ++ ascii ":::" ++ rest) :
    AsideBlockParser.CanAcceptIndentedLine = false
      ∧ AsideBlockParser.Open reader = .ok (none, parser.NoChildren, reader) := by
  refine ⟨rfl, Open_of_not_marker reader ?_⟩
  match n, hn with
  | k + 1, _ =>
    rw [List.replicate_succ, List.cons_append, List.cons_append] at hl
    exact not_marker_of_head _ _ _ hl (by decide)

/-- Witness of C14 on the line of 4 spaces and `:::Note`. -/
theorem C14_indented_marker_not_opened_witness :
    AsideBlockParser.CanAcceptIndentedLine = false
      ∧ AsideBlockParser.Open ⟨ascii "    :::Note\n", 0⟩
        = .ok (none, parser.NoChildren, ⟨ascii "    :::Note\n", 0⟩) :=
  C14_indented_marker_not_opened ⟨ascii "    :::Note\n", 0⟩ 4 (ascii "Note\n") (by decide)
    (by decide)

/-- C15: `Trigger` is the one byte `:`; and every line on which `Open`
returns a node begins with that byte, so offering `Open` only the lines that
begin with a trigger byte hides no line it would have matched. -/
theorem C15_trigger_sound (reader : Reader) (node : AsideBlockNode) (st : State) (r : Reader)
    (h : AsideBlockParser.Open reader = .ok (some node, st, r)) :
    AsideBlockParser.Trigger = [0x3A]
      ∧ reader.PeekLine.head? = some 0x3A
      ∧ ∃ c ∈ AsideBlockParser.Trigger, reader.PeekLine.head? = some c := by
  have hm : 3 ≤ reader.PeekLine.length ∧ reader.PeekLine.take 3 = AsideBlockParser.marker := by
    by_contra hn
    rw [Open_of_not_marker reader hn] at h
    cases h
  have hh := head_of_marker _ hm.2
  exact ⟨rfl, hh, 0x3A, by simp [AsideBlockParser.Trigger], hh⟩

/-- Witness of C15 on the first line of `:::Note\nHello\n:::`. -/
theorem C15_trigger_sound_witness :
    AsideBlockParser.Trigger = [0x3A]
      ∧ (Reader.PeekLine ⟨ascii ":::Note\nHello\n:::", 0⟩).head? = some 0x3A
      ∧ ∃ c ∈ AsideBlockParser.Trigger,
          (Reader.PeekLine ⟨ascii ":::Note\nHello\n:::", 0⟩).head? = some c :=
  C15_trigger_sound ⟨ascii ":::Note\nHello\n:::", 0⟩ ⟨ascii "Note"⟩ parser.HasChildren
    ⟨ascii ":::Note\nHello\n:::", 8⟩ (by decide)

/-- C16: `Close` is a no-op: it returns the node and the reader it was
given, so the reader's position and the node's title are as before, and the
engine finalizes the block with the children it had. -/
theorem C16_Close_noop (node : AsideBlockNode) (reader : Reader) :
    AsideBlockParser.Close node reader = (node, reader)
      ∧ (AsideBlockParser.Close node reader).2.pos = reader.pos
      ∧ (AsideBlockParser.Close node reader).1.Title = node.Title
      ∧ ∀ (children done : List Block),
          (Engine.closeInnermost
              { reader := reader, done := done, opened := [(node, children)], paragraph := none }).done
            = done ++ [Block.AsideBlock node children] :=
  ⟨rfl, rfl, rfl, fun _ _ => rfl⟩

/-- C17: `Open` and `Continue` use the same marker test. On every line,
`Open` returns a node exactly when `Continue` returns `Close`; then both
move the reader on by the length of the line, to the same reader; on every
other line both return the reader they were given. -/
theorem C17_Open_Continue_agree (node : AsideBlockNode) (reader : Reader) :
    ((∃ n st r, AsideBlockParser.Open reader = .ok (some n, st, r))
        ↔ (∃ r, AsideBlockParser.Continue node reader = .ok (parser.Close, r)))
      ∧ ((∃ n r, AsideBlockParser.Open reader = .ok (some n, parser.HasChildren, r)
            ∧ AsideBlockParser.Continue node reader = .ok (parser.Close, r)
            ∧ r.pos = reader.pos + reader.PeekLine.length)
          ∨ (AsideBlockParser.Open reader = .ok (none, parser.NoChildren, reader)
            ∧ AsideBlockParser.Continue node reader
              = .ok (parser.Continue ||| parser.HasChildren, reader))) := by
  by_cases hm : 3 ≤ reader.PeekLine.length ∧ reader.PeekLine.take 3 = AsideBlockParser.marker
  · have ho := Open_of_marker reader hm.1 hm.2
    have hc := Continue_of_marker node reader hm.1 hm.2
    refine ⟨⟨fun _ => ⟨_, hc⟩, fun _ => ⟨_, _, _, ho⟩⟩, Or.inl ⟨_, _, ho, hc, ?_⟩⟩
    exact Advance_PeekLine_pos reader (by omega)
  · have ho := Open_of_not_marker reader hm
    have hc := Continue_of_not_marker node reader hm
    refine ⟨⟨?_, ?_⟩, Or.inr ⟨ho, hc⟩⟩
    · rintro ⟨n, st, r, h⟩
      rw [ho] at h
      cases h
    · rintro ⟨r, h⟩
      rw [hc] at h
      have := (Prod.mk.inj (Except.ok.inj h)).1
      exact absurd this (by decide)

/-- C18: the marker must be the very first bytes of the line. On a line that
begins with a white-space byte (a space or a tab before `:::`, say), `Open`
returns no node and `Continue` returns `Continue | HasChildren`, which is
not `Close`; both leave the reader as it was. -/
theorem C18_leading_space_no_marker (node : AsideBlockNode) (reader : Reader) (c : Nat)
    (rest : List Nat) (hl : reader.PeekLine = c :: rest) (hc : bytes.asciiSpace c = true) :
    AsideBlockParser.Open reader = .ok (none, parser.NoChildren, reader)
      ∧ AsideBlockParser.Continue node reader
        = .ok (parser.Continue ||| parser.HasChildren, reader)
      ∧ parser.Continue ||| parser.HasChildren ≠ parser.Close := by
  have hm := not_marker_of_head _ c rest hl (asciiSpace_ne_colon c hc)
  exact ⟨Open_of_not_marker reader hm, Continue_of_not_marker node reader hm, by decide⟩

/-- Witness of C18 on the line ` :::Note`, indented by one space. -/
theorem C18_leading_space_no_marker_witness :
    AsideBlockParser.Open ⟨ascii " :::Note\n", 0⟩
        = .ok (none, parser.NoChildren, ⟨ascii " :::Note\n", 0⟩)
      ∧ AsideBlockParser.Continue ⟨ascii "Title"⟩ ⟨ascii " :::Note\n", 0⟩
        = .ok (parser.Continue ||| parser.HasChildren, ⟨ascii " :::Note\n", 0⟩)
      ∧ parser.Continue ||| parser.HasChildren ≠ parser.Close :=
  C18_leading_space_no_marker ⟨ascii "Title"⟩ ⟨ascii " :::Note\n", 0⟩ 0x20 (ascii ":::Note\n")
    (by decide) (by decide)

/-! ## Theorems: the template of `render` always parses -/

/-- On entry, with the modelled library: `render` stops exactly when the
writer has less room than the opening tags and the escaped title need, and
then with the writer's error wrapped as an execution error. -/
theorem render_enter_cases (w : BufWriter) (node : AsideBlockNode) :
    (∃ n, w.room = some n
        ∧ n < (ascii "<aside><h3>" ++ template.htmlEscaper node.Title ++ ascii "</h3>").length
        ∧ (AsideBlockRenderer.render htmlTemplate w node true).2
          = (WalkStatus.WalkStop, some (Error.wrap "executing aside template" Error.write)))
      ∨ ((w.room = none ∨ ∃ n, w.room = some n
            ∧ (ascii "<aside><h3>" ++ template.htmlEscaper node.Title ++ ascii "</h3>").length ≤ n)
        ∧ (AsideBlockRenderer.render htmlTemplate w node true).2 = (WalkStatus.WalkContinue, none)
        ∧ (AsideBlockRenderer.render htmlTemplate w node true).1.out
          = w.out ++ ascii "<aside><h3>" ++ template.htmlEscaper node.Title ++ ascii "</h3>") := by
  obtain ⟨out, room⟩ := w
  cases room with
  | none =>
    right
    simp [AsideBlockRenderer.render, htmlTemplate, Parse_templateText, template.Execute,
      BufWriter.Write]
  | some n =>
    simp only [AsideBlockRenderer.render, htmlTemplate, Parse_templateText, template.Execute,
      BufWriter.Write, if_true, List.length_append]
    generalize (ascii "<aside><h3>").length = a
    generalize (template.htmlEscaper node.Title).length = b
    generalize (ascii "</h3>").length = c
    by_cases h1 : a ≤ n
    · by_cases h2 : b ≤ n - a
      · by_cases h3 : c ≤ n - a - b
        · right
          simp only [h1, h2, h3, if_true]
          simp
          omega
        · left
          simp only [h1, h2, h3, if_true, if_false]
          simp
          omega
      · left
        simp only [h1, h2, if_true, if_false]
        simp
        omega
    · left
      simp only [h1, if_false]
      simp
      omega

/-- C19: the parse-error branch of `render` is never taken: the template
text is fixed and parses. For every title and every writer, `render` on
entry returns `(WalkContinue, nil)` when the writer does not fail; `WalkStop`
is returned only on entry, only with the writer's error wrapped as an
execution error, and only when the writer had less room than the output
needs; no result of `render` carries a parse error. -/
theorem C19_parse_error_unreachable (w : BufWriter) (node : AsideBlockNode) :
    (∃ tpl, htmlTemplate.Parse AsideBlockRenderer.templateText = .ok tpl)
      ∧ (∀ entering err, (AsideBlockRenderer.render htmlTemplate w node entering).2.2
          ≠ some (Error.wrap "parsing aside template" err))
      ∧ (w.room = none →
          AsideBlockRenderer.render htmlTemplate w node true
            = (⟨w.out ++ ascii "<aside><h3>" ++ template.htmlEscaper node.Title ++ ascii "</h3>",
                none⟩, WalkStatus.WalkContinue, none))
      ∧ (∀ entering,
          (AsideBlockRenderer.render htmlTemplate w node entering).2.1 = WalkStatus.WalkStop →
            entering = true
            ∧ (AsideBlockRenderer.render htmlTemplate w node entering).2.2
              = some (Error.wrap "executing aside template" Error.write)
            ∧ ∃ n, w.room = some n
              ∧ n < (ascii "<aside><h3>" ++ template.htmlEscaper node.Title
                      ++ ascii "</h3>").length) := by
  refine ⟨⟨_, Parse_templateText⟩, ?_, ?_, ?_⟩
  · intro entering err
    cases entering
    · simp [AsideBlockRenderer.render]
    · rcases render_enter_cases w node with ⟨n, -, -, h⟩ | ⟨-, h, -⟩
      · rw [h]
        simp
      · rw [h]
        simp
  · intro h
    obtain ⟨out, room⟩ := w
    simp only at h
    subst h
    exact render_enter out node.Title
  · intro entering hs
    cases entering
    · simp [AsideBlockRenderer.render] at hs
    · rcases render_enter_cases w node with ⟨n, h1, h2, h⟩ | ⟨-, h, -⟩
      · rw [h]
        exact ⟨rfl, rfl, n, h1, h2⟩
      · rw [h] at hs
        cases hs

/-- Witness of C19: a writer without limit, and one that accepts 5 more
bytes. -/
theorem C19_parse_error_unreachable_witness :
    AsideBlockRenderer.render htmlTemplate ⟨[], none⟩ ⟨[0xFF, 0x3C]⟩ true
        = (⟨ascii "<aside><h3>" ++ template.htmlEscaper [0xFF, 0x3C] ++ ascii "</h3>", none⟩,
            WalkStatus.WalkContinue, none)
      ∧ (AsideBlockRenderer.render htmlTemplate ⟨[], some 5⟩ ⟨[]⟩ true).2.2
        = some (Error.wrap "executing aside template" Error.write) :=
  ⟨(C19_parse_error_unreachable ⟨[], none⟩ ⟨[0xFF, 0x3C]⟩).2.2.1 rfl,
    ((C19_parse_error_unreachable ⟨[], some 5⟩ ⟨[]⟩).2.2.2 true (by decide)).2.1⟩

/-! ## Theorems: the engine and paragraphs -/

namespace Engine

/-- A line that begins with `:` is not blank. -/
theorem isBlank_of_marker (line : List Nat) (hm : line.take 3 = AsideBlockParser.marker) :
    isBlank line = false := by
  have hh := head_of_marker line hm
  match line, hh with
  | c :: rest, hh =>
    simp only [List.head?_cons, Option.some.injEq] at hh
    subst hh
    simp [isBlank, bytes.asciiSpace]

/-- While a paragraph is being read the engine does not offer the line to
`Open`: the parser cannot interrupt a paragraph. -/
theorem offersOpen_in_paragraph (line : List Nat) : offersOpen line true = false := by
  simp [offersOpen, AsideBlockParser.CanInterruptParagraph]

end Engine

/-- C13: the parser cannot interrupt a paragraph. `CanInterruptParagraph` is
false; so when no aside block is open and a paragraph is being read (the
line before was paragraph text, no blank line since), a line that starts
with `:::` is not offered to `Open`, no block is opened, and the text of the
line is appended to the paragraph. -/
theorem C13_no_paragraph_interrupt (e : Engine) (text : List Nat)
    (ho : e.opened = []) (hp : e.paragraph = some text)
    (h : 3 ≤ e.reader.PeekLine.length) (hm : e.reader.PeekLine.take 3 = ascii ":::") :
    AsideBlockParser.CanInterruptParagraph = false
      ∧ Engine.offersOpen e.reader.PeekLine e.paragraph.isSome = false
      ∧ ∃ e', Engine.step e = .ok e'
          ∧ e'.opened = []
          ∧ e'.done = e.done
          ∧ e'.paragraph = some (text ++ [0x0A] ++ Engine.lineText e.reader.PeekLine)
          ∧ e'.reader.pos = e.reader.pos + e.reader.PeekLine.length := by
  have hoff : Engine.offersOpen e.reader.PeekLine e.paragraph.isSome = false := by
    rw [hp]
    exact Engine.offersOpen_in_paragraph _
  refine ⟨rfl, hoff, ?_⟩
  have hb := Engine.isBlank_of_marker _ hm
  have hpos := Advance_PeekLine_pos e.reader (by omega)
  simp only [Engine.step, ho, List.reverse_nil, Engine.continueOpened, bind, Except.bind,
    hp, Option.isSome_some, Bool.true_or, if_true, Engine.openBlocks, hb,
    Engine.offersOpen_in_paragraph, Bool.false_eq_true, if_false, Engine.paragraphLine]
  exact ⟨_, rfl, rfl, rfl, rfl, hpos⟩

/-- Witness of C13 on the second line of `Hello\n:::Note\n`. -/
theorem C13_no_paragraph_interrupt_witness :
    AsideBlockParser.CanInterruptParagraph = false
      ∧ Engine.offersOpen (Reader.PeekLine ⟨ascii "Hello\n:::Note\n", 6⟩)
          (some (ascii "Hello")).isSome = false
      ∧ ∃ e', Engine.step ⟨⟨ascii "Hello\n:::Note\n", 6⟩, [], [], some (ascii "Hello")⟩ = .ok e'
          ∧ e'.opened = []
          ∧ e'.done = []
          ∧ e'.paragraph = some (ascii "Hello" ++ [0x0A]
              ++ Engine.lineText (Reader.PeekLine ⟨ascii "Hello\n:::Note\n", 6⟩))
          ∧ e'.reader.pos = 6 + (Reader.PeekLine ⟨ascii "Hello\n:::Note\n", 6⟩).length :=
  C13_no_paragraph_interrupt ⟨⟨ascii "Hello\n:::Note\n", 6⟩, [], [], some (ascii "Hello")⟩
    (ascii "Hello") rfl rfl (by decide) (by decide)

/-- The documents of `Hello\n:::Note\n` and, with a blank line between the
two lines, of `Hello\n\n:::Note\n`. -/
theorem marker_after_paragraph :
    Engine.parse (ascii "Hello\n:::Note\n") = .ok [Block.Paragraph (ascii "Hello\n:::Note")]
      ∧ Engine.parse (ascii "Hello\n\n:::Note\n")
        = .ok [Block.Paragraph (ascii "Hello"), Block.AsideBlock ⟨ascii "Note"⟩ []] :=
  ⟨by rfl, by rfl⟩

/-! ## Theorems: a block that is never closed -/

theorem splitLines_newline (c : Nat) (rest : List Nat) (hc : c = 0x0A) :
    splitLines (c :: rest) = [c] :: splitLines rest := by
  rw [splitLines, if_pos hc]

theorem splitLines_last (c : Nat) (rest : List Nat) (hc : c ≠ 0x0A) (h : splitLines rest = []) :
    splitLines (c :: rest) = [[c]] := by
  rw [splitLines, if_neg hc, h]

theorem splitLines_more (c : Nat) (rest line : List Nat) (lines : List (List Nat)) (hc : c ≠ 0x0A)
    (h : splitLines rest = line :: lines) :
    splitLines (c :: rest) = (c :: line) :: lines := by
  rw [splitLines, if_neg hc, h]

theorem splitLines_eq_nil (l : List Nat) (h : splitLines l = []) : l = [] := by
  cases l with
  | nil => rfl
  | cons c rest =>
    by_cases hc : c = 0x0A
    · rw [splitLines_newline c rest hc] at h
      cases h
    · cases hr : splitLines rest with
      | nil =>
        rw [splitLines_last c rest hc hr] at h
        cases h
      | cons line lines =>
        rw [splitLines_more c rest line lines hc hr] at h
        cases h

theorem splitLines_cons_eq (l : List Nat) (h : l ≠ []) :
    splitLines l = takeLine l :: splitLines (l.drop (takeLine l).length) := by
  induction l with
  | nil => exact absurd rfl h
  | cons c rest ih =>
    rw [takeLine]
    by_cases hc : c = 0x0A
    · rw [splitLines_newline c rest hc, if_pos hc]
      simp
    · rw [if_neg hc]
      by_cases hr : rest = []
      · subst hr
        rw [splitLines_last c [] hc rfl]
        simp [splitLines, takeLine]
      · rw [splitLines_more c rest _ _ hc (ih hr)]
        simp

theorem splitLines_length_le (l : List Nat) : (splitLines l).length ≤ l.length := by
  induction l with
  | nil => simp [splitLines]
  | cons c rest ih =>
    by_cases hc : c = 0x0A
    · rw [splitLines_newline c rest hc]
      simp only [List.length_cons]
      omega
    · cases hr : splitLines rest with
      | nil =>
        rw [splitLines_last c rest hc hr]
        simp
      | cons line lines =>
        rw [splitLines_more c rest line lines hc hr]
        rw [hr] at ih
        simp only [List.length_cons] at ih ⊢
        omega

theorem takeLine_ne_nil (l : List Nat) (h : l ≠ []) : takeLine l ≠ [] := by
  cases l with
  | nil => exact absurd rfl h
  | cons c rest =>
    unfold takeLine
    split <;> simp

/-- The reader at the start of the lines `line :: rest`: the current line is
`line`, and the next line starts the lines `rest`. -/
theorem Reader.lines_cons (r : Reader) (line : List Nat) (rest : List (List Nat))
    (hs : splitLines (r.source.drop r.pos) = line :: rest) :
    r.PeekLine = line ∧ line ≠ []
      ∧ splitLines (r.AdvanceLine.source.drop r.AdvanceLine.pos) = rest
      ∧ r.AdvanceLine.source = r.source := by
  have hne : r.source.drop r.pos ≠ [] := by
    intro h
    rw [h] at hs
    cases hs
  rw [splitLines_cons_eq _ hne] at hs
  have h1 : r.PeekLine = line := (List.cons.inj hs).1
  have h2 := (List.cons.inj hs).2
  have hle := takeLine_length_le (r.source.drop r.pos)
  have hl : r.PeekLine.length = (takeLine (r.source.drop r.pos)).length := rfl
  refine ⟨h1, ?_, ?_, rfl⟩
  · rw [← h1]
    exact takeLine_ne_nil _ hne
  · rw [← h2]
    simp only [Reader.AdvanceLine, Reader.Advance, List.drop_drop]
    congr 2
    have hpos := List.length_pos.mpr hne
    simp only [List.length_drop] at hle hpos
    omega

/-- The reader after the last line: the current line is empty. -/
theorem Reader.lines_nil (r : Reader) (hs : splitLines (r.source.drop r.pos) = []) :
    r.PeekLine = [] := by
  unfold Reader.PeekLine
  rw [splitLines_eq_nil _ hs]
  rfl

namespace Engine

theorem HasChildren_and_HasChildren : parser.HasChildren &&& parser.HasChildren ≠ 0 := by decide

theorem Continue_has_children :
    ((parser.Continue ||| parser.HasChildren) &&& parser.HasChildren != 0) = true := by decide

/-- A marker line is offered to `Open` when no paragraph is being read. -/
theorem offersOpen_of_marker (line : List Nat) (hm : line.take 3 = AsideBlockParser.marker) :
    offersOpen line false = true := by
  have hh := head_of_marker line hm
  match line, hh with
  | c :: rest, hh =>
    simp only [List.head?_cons, Option.some.injEq] at hh
    subst hh
    simp [offersOpen, indentWidth, AsideBlockParser.Trigger]

/-- Inside an open block, on a line without the marker, the general grammar
does with the line what `contentStep` says. -/
theorem openBlocks_content (fuel : Nat) (r : Reader) (d : List Block) (node : AsideBlockNode)
    (texts : List (List Nat)) (p : Option (List Nat))
    (hm : ¬ (3 ≤ r.PeekLine.length ∧ r.PeekLine.take 3 = AsideBlockParser.marker)) :
    openBlocks (fuel + 1) ⟨r, d, [(node, texts.map Block.Paragraph)], p⟩
      = .ok ⟨r, d, [(node, (contentStep (texts, p) r.PeekLine).1.map Block.Paragraph)],
          (contentStep (texts, p) r.PeekLine).2⟩ := by
  unfold openBlocks
  simp only
  by_cases hb : isBlank r.PeekLine = true
  · have hb' : r.PeekLine.all bytes.asciiSpace = true := hb
    rw [if_pos hb]
    cases p with
    | none => simp [closeParagraph, contentStep, hb']
    | some text => simp [closeParagraph, addBlock, contentStep, hb', trimRightSpace]
  · have hb' : ¬ r.PeekLine.all bytes.asciiSpace = true := hb
    rw [if_neg hb]
    have hpl : (Except.ok (paragraphLine ⟨r, d, [(node, texts.map Block.Paragraph)], p⟩ r.PeekLine)
          : Except Panic Engine)
        = .ok ⟨r, d, [(node, (contentStep (texts, p) r.PeekLine).1.map Block.Paragraph)],
            (contentStep (texts, p) r.PeekLine).2⟩ := by
      cases p with
      | none => simp [paragraphLine, contentStep, hb', lineText]
      | some text => simp [paragraphLine, contentStep, hb', lineText]
    split_ifs
    · simp only [Open_of_not_marker r hm, bind, Except.bind]
      exact hpl
    · exact hpl

/-- One pass of the engine inside an open block, on a line without the
marker: the block stays open and the line joins its content. -/
theorem step_content (r : Reader) (d : List Block) (node : AsideBlockNode)
    (texts : List (List Nat)) (p : Option (List Nat))
    (hm : ¬ (3 ≤ r.PeekLine.length ∧ r.PeekLine.take 3 = AsideBlockParser.marker)) :
    step ⟨r, d, [(node, texts.map Block.Paragraph)], p⟩
      = .ok ⟨r.AdvanceLine, d,
          [(node, (contentStep (texts, p) r.PeekLine).1.map Block.Paragraph)],
          (contentStep (texts, p) r.PeekLine).2⟩ := by
  simp only [step, List.reverse_cons, List.reverse_nil, List.nil_append, continueOpened,
    Continue_of_not_marker node r hm, bind, Except.bind, Continue_and_Continue, ne_eq,
    not_false_eq_true, if_true, Continue_has_children, Bool.or_true,
    openBlocks_content _ r d node texts p hm]

/-- The pass of the engine on an opening marker line, when the next line has
no marker: `Open` leaves the reader at the start of the next line, and the
engine takes that line as the first content of the block in the same
pass. -/
theorem step_opening (r : Reader) (h : 3 ≤ r.PeekLine.length)
    (hm : r.PeekLine.take 3 = AsideBlockParser.marker)
    (hn : ¬ (3 ≤ r.AdvanceLine.PeekLine.length
      ∧ r.AdvanceLine.PeekLine.take 3 = AsideBlockParser.marker)) :
    step ⟨r, [], [], none⟩
      = .ok ⟨r.AdvanceLine.AdvanceLine, [],
          [(⟨bytes.TrimSpace (r.PeekLine.drop 3)⟩,
            (contentStep ([], none) r.AdvanceLine.PeekLine).1.map Block.Paragraph)],
          (contentStep ([], none) r.AdvanceLine.PeekLine).2⟩ := by
  have hlen : ∃ n, r.source.length = n + 1 := by
    have := PeekLine_length_le r
    exact ⟨r.source.length - 1, by omega⟩
  obtain ⟨n, hn1⟩ := hlen
  have hsrc : r.AdvanceLine.source.length = n + 1 := hn1
  have hcontent := openBlocks_content n r.AdvanceLine [] ⟨bytes.TrimSpace (r.PeekLine.drop 3)⟩ []
    none hn
  simp only [List.map_nil] at hcontent
  simp only [step, List.reverse_nil, continueOpened, bind, Except.bind, Option.isSome_none,
    Bool.false_or, if_true]
  unfold openBlocks
  simp only [isBlank_of_marker _ hm, Bool.false_eq_true, if_false, Option.isSome_none,
    offersOpen_of_marker _ hm, if_true, Open_of_marker r h hm, bind, Except.bind,
    closeParagraph, HasChildren_and_HasChildren, ne_eq, not_false_eq_true, hn1]
  have hadv : r.Advance r.PeekLine.length = r.AdvanceLine := rfl
  rw [hadv, hcontent]

/-- The pass of the engine on the marker line that ends the input, with one
block open: the block is closed with the content it has. -/
theorem step_closing (r : Reader) (node : AsideBlockNode) (texts : List (List Nat))
    (p : Option (List Nat)) (h : 3 ≤ r.PeekLine.length)
    (hm : r.PeekLine.take 3 = AsideBlockParser.marker) (hend : r.AdvanceLine.PeekLine = []) :
    step ⟨r, [], [(node, texts.map Block.Paragraph)], p⟩
      = .ok ⟨r.AdvanceLine.AdvanceLine,
          [Block.AsideBlock node ((contentEnd (texts, p)).map Block.Paragraph)], [], none⟩ := by
  have hadv : r.Advance r.PeekLine.length = r.AdvanceLine := rfl
  have hgo : paragraphGoesOn ⟨r.AdvanceLine, [], [(node, texts.map Block.Paragraph)], p⟩
      = false := by
    simp [paragraphGoesOn, hend, isBlank]
  simp only [step, List.reverse_cons, List.reverse_nil, List.nil_append, continueOpened,
    Continue_of_marker node r h hm, bind, Except.bind, Close_and_Continue, ne_eq,
    not_true_eq_false, if_false, hadv, hgo, Bool.false_eq_true]
  cases p with
  | none =>
    simp [closeFrom, closeN, closeInnermost, closeParagraph, addBlock, AsideBlockParser.Close,
      openBlocks, hend, isBlank, contentEnd]
  | some text =>
    simp [closeFrom, closeN, closeInnermost, closeParagraph, addBlock, AsideBlockParser.Close,
      openBlocks, hend, isBlank, contentEnd, trimRightSpace]

theorem run_of_end (n : Nat) (e : Engine) (h : e.reader.PeekLine = []) : run n e = .ok e := by
  cases n with
  | zero => rfl
  | succ n => simp [run, h]

/-- Inside an open block, over lines without the marker, the engine takes
one pass per line and the lines join the content of the block. -/
theorem run_content (node : AsideBlockNode) (rest : List (List Nat)) :
    ∀ (lines : List (List Nat)) (r : Reader) (texts : List (List Nat)) (p : Option (List Nat)),
      splitLines (r.source.drop r.pos) = lines ++ rest →
      (∀ line ∈ lines, line.take 3 ≠ AsideBlockParser.marker) →
      ∃ r', splitLines (r'.source.drop r'.pos) = rest ∧
        ∀ n, run (lines.length + n) ⟨r, [], [(node, texts.map Block.Paragraph)], p⟩
          = run n ⟨r', [],
              [(node, (lines.foldl contentStep (texts, p)).1.map Block.Paragraph)],
              (lines.foldl contentStep (texts, p)).2⟩ := by
  intro lines
  induction lines with
  | nil =>
    intro r texts p hs _
    exact ⟨r, hs, fun n => by simp⟩
  | cons line lines ih =>
    intro r texts p hs hl
    obtain ⟨h1, h2, h3, _⟩ := Reader.lines_cons r line (lines ++ rest) hs
    have hm : ¬ (3 ≤ r.PeekLine.length ∧ r.PeekLine.take 3 = AsideBlockParser.marker) := by
      rw [h1]
      exact fun h => hl line (List.mem_cons_self _ _) h.2
    obtain ⟨r', hr', hrun⟩ := ih r.AdvanceLine (contentStep (texts, p) line).1
      (contentStep (texts, p) line).2 h3 (fun l hl' => hl l (List.mem_cons_of_mem _ hl'))
    refine ⟨r', hr', fun n => ?_⟩
    have hn : (line :: lines).length + n = (lines.length + n) + 1 := by
      simp only [List.length_cons]
      omega
    have hne : ¬ r.PeekLine = [] := by rw [h1]; exact h2
    rw [hn, run]
    simp only [hne, if_false, step_content r [] node texts p hm, bind, Except.bind]
    rw [h1, hrun n]
    rfl

/-- At the end of the input the block still open is finalized with the
content it has. -/
theorem finalize_content (r : Reader) (node : AsideBlockNode) (texts : List (List Nat))
    (p : Option (List Nat)) :
    (closeParagraph (closeFrom 0 ⟨r, [], [(node, texts.map Block.Paragraph)], p⟩)).done
      = [Block.AsideBlock node ((contentEnd (texts, p)).map Block.Paragraph)] := by
  cases p with
  | none =>
    simp [closeFrom, closeN, closeInnermost, closeParagraph, addBlock, AsideBlockParser.Close,
      contentEnd]
  | some text =>
    simp [closeFrom, closeN, closeInnermost, closeParagraph, addBlock, AsideBlockParser.Close,
      contentEnd, trimRightSpace]

end Engine

/-- After the last line the reader stays after the last line. -/
theorem Reader.lines_nil_advance (r : Reader) (hs : splitLines (r.source.drop r.pos) = []) :
    splitLines (r.AdvanceLine.source.drop r.AdvanceLine.pos) = [] := by
  have h := splitLines_eq_nil _ hs
  have hle : r.source.length ≤ r.pos := List.drop_eq_nil_iff.mp h
  have : r.AdvanceLine.source.drop r.AdvanceLine.pos = [] := by
    apply List.drop_eq_nil_iff.mpr
    simp only [Reader.AdvanceLine, Reader.Advance]
    omega
  rw [this]
  rfl

theorem marker_ascii : ascii ":::" = AsideBlockParser.marker := by decide

theorem marker_length (line : List Nat) (h : line.take 3 = ascii ":::") : 3 ≤ line.length := by
  have := congrArg List.length h
  simp only [List.length_take] at this
  have h3 : (ascii ":::").length = 3 := by decide
  omega

namespace Engine

/-- From the start of an input whose first line has the marker, over the
lines `body` without the marker: the first pass opens the block and takes the
first line of `body` with it, and every later pass takes one line. -/
theorem run_opened (source first : List Nat) (body rest : List (List Nat))
    (hs : splitLines source = first :: (body ++ rest))
    (h1 : first.take 3 = ascii ":::")
    (h2 : ∀ line ∈ body, line.take 3 ≠ ascii ":::")
    (hb : body ≠ [] ∨ rest = []) :
    ∃ r', splitLines (r'.source.drop r'.pos) = rest ∧
      ∀ n, run (body.tail.length + n + 1) (init source)
        = run n ⟨r', [],
            [(⟨bytes.TrimSpace (first.drop 3)⟩,
              (body.foldl contentStep ([], none)).1.map Block.Paragraph)],
            (body.foldl contentStep ([], none)).2⟩ := by
  have hs0 : splitLines ((Reader.mk source 0).source.drop (Reader.mk source 0).pos)
      = first :: (body ++ rest) := by simpa using hs
  obtain ⟨hp0, hne0, hrem1, -⟩ := Reader.lines_cons ⟨source, 0⟩ first (body ++ rest) hs0
  have hlen := marker_length first h1
  rw [marker_ascii] at h1 h2
  have hinit : init source = ⟨⟨source, 0⟩, [], [], none⟩ := rfl
  have hne : ¬ (init source).reader.PeekLine = [] := by
    rw [hinit, hp0]
    exact hne0
  cases body with
  | nil =>
    have hrest : rest = [] := by
      rcases hb with h | h
      · exact absurd rfl h
      · exact h
    subst hrest
    simp only [List.nil_append] at hrem1
    have hp1 := Reader.lines_nil _ hrem1
    have hn : ¬ (3 ≤ (Reader.AdvanceLine ⟨source, 0⟩).PeekLine.length
        ∧ (Reader.AdvanceLine ⟨source, 0⟩).PeekLine.take 3 = AsideBlockParser.marker) := by
      rw [hp1]
      simp
    have hstep := step_opening ⟨source, 0⟩ (by rw [hp0]; exact hlen) (by rw [hp0]; exact h1) hn
    rw [hp1, hp0] at hstep
    refine ⟨(Reader.AdvanceLine ⟨source, 0⟩).AdvanceLine, Reader.lines_nil_advance _ hrem1,
      fun n => ?_⟩
    rw [run, if_neg hne, hinit]
    simp only [hstep, bind, Except.bind, List.tail_nil, List.length_nil, Nat.zero_add]
    rfl
  | cons line body =>
    simp only [List.cons_append] at hrem1
    obtain ⟨hp1, -, hrem2, -⟩ := Reader.lines_cons _ line (body ++ rest) hrem1
    have hn : ¬ (3 ≤ (Reader.AdvanceLine ⟨source, 0⟩).PeekLine.length
        ∧ (Reader.AdvanceLine ⟨source, 0⟩).PeekLine.take 3 = AsideBlockParser.marker) := by
      rw [hp1]
      exact fun h => h2 line (List.mem_cons_self _ _) h.2
    have hstep := step_opening ⟨source, 0⟩ (by rw [hp0]; exact hlen) (by rw [hp0]; exact h1) hn
    rw [hp1, hp0] at hstep
    obtain ⟨r', hr', hrun⟩ := run_content ⟨bytes.TrimSpace (first.drop 3)⟩ rest body
      (Reader.AdvanceLine ⟨source, 0⟩).AdvanceLine (contentStep ([], none) line).1
      (contentStep ([], none) line).2 hrem2
      (fun l hl => h2 l (List.mem_cons_of_mem _ hl))
    refine ⟨r', hr', fun n => ?_⟩
    rw [run, if_neg hne, hinit]
    simp only [hstep, bind, Except.bind, List.tail_cons, List.foldl_cons]
    exact hrun n

end Engine

/-- The walk over paragraphs, with a writer that never fails, appends their
HTML and goes on. -/
theorem walkBlocks_paragraphs (lib : TemplateLib) (texts : List (List Nat)) :
    ∀ out, walkBlocks lib (texts.map Block.Paragraph) ⟨out, none⟩
      = (⟨out ++ texts.flatMap (fun t => ascii "<p>" ++ t ++ ascii "</p>\n"), none⟩,
          WalkStatus.WalkContinue, none) := by
  induction texts with
  | nil => intro out; simp [walkBlocks]
  | cons t rest ih =>
    intro out
    simp only [List.map_cons, walkBlocks, walkBlock, BufWriter.WriteString, BufWriter.Write, ih]
    simp

/-- The walk over one aside block whose children render to `C`. -/
theorem walkBlocks_aside (node : AsideBlockNode) (children : List Block) (C : List Nat)
    (hC : ∀ out, walkBlocks htmlTemplate children ⟨out, none⟩
      = (⟨out ++ C, none⟩, WalkStatus.WalkContinue, none)) (out : List Nat) :
    walkBlocks htmlTemplate [Block.AsideBlock node children] ⟨out, none⟩
      = (⟨out ++ ascii "<aside><h3>" ++ template.htmlEscaper node.Title ++ ascii "</h3>" ++ C
            ++ ascii "</aside>", none⟩, WalkStatus.WalkContinue, none) := by
  obtain ⟨T⟩ := node
  have hexit : ∀ o, AsideBlockRenderer.render htmlTemplate ⟨o, none⟩ ⟨T⟩ false
      = (⟨o ++ ascii "</aside>", none⟩, WalkStatus.WalkContinue, none) := fun _ => rfl
  simp only [walkBlocks, walkBlock, render_enter, hC, hexit]

/-- C12: a block that is opened and never closed. When the first line of the
input starts with `:::` and no later line does, `Continue` returns
`Continue | HasChildren` on every later line and consumes none, and the
engine reads to the end of the input and finalizes the block: the document
is that one aside block, and its children are the paragraphs made of all the
later lines (`contentOf`). Rendered, it is `<aside><h3>`, the escaped title,
`</h3>`, the paragraphs and the matching `</aside>`. The same input with a
closing marker line added after at least one other line gives the same
document, hence the same HTML. -/
theorem C12_unclosed_block (source first : List Nat) (body : List (List Nat))
    (hs : splitLines source = first :: body)
    (h1 : first.take 3 = ascii ":::")
    (h2 : ∀ line ∈ body, line.take 3 ≠ ascii ":::") :
    (∀ line ∈ body, ∀ (node : AsideBlockNode) (reader : Reader), reader.PeekLine = line →
        AsideBlockParser.Continue node reader
          = .ok (parser.Continue ||| parser.HasChildren, reader))
      ∧ Engine.parse source
        = .ok [Block.AsideBlock ⟨bytes.TrimSpace (first.drop 3)⟩
            ((contentOf body).map Block.Paragraph)]
      ∧ renderDocument htmlTemplate
          [Block.AsideBlock ⟨bytes.TrimSpace (first.drop 3)⟩ ((contentOf body).map Block.Paragraph)]
        = some (ascii "<aside><h3>" ++ (bytes.TrimSpace (first.drop 3)).flatMap template.escapeByte
            ++ ascii "</h3>" ++ (contentOf body).flatMap (fun t => ascii "<p>" ++ t ++ ascii "</p>\n")
            ++ ascii "</aside>")
      ∧ ∀ (closed closing : List Nat), splitLines closed = first :: (body ++ [closing]) →
          body ≠ [] → closing.take 3 = ascii ":::" → Engine.parse closed = Engine.parse source := by
  have hparse : Engine.parse source
      = .ok [Block.AsideBlock ⟨bytes.TrimSpace (first.drop 3)⟩
          ((contentOf body).map Block.Paragraph)] := by
    obtain ⟨r', hr', hrun⟩ := Engine.run_opened source first body []
      (by simpa using hs) h1 h2 (Or.inr rfl)
    have hlen := splitLines_length_le source
    rw [hs] at hlen
    simp only [List.length_cons] at hlen
    have htail : body.tail.length ≤ body.length := by simp
    obtain ⟨n, hn⟩ : ∃ n, source.length = body.tail.length + n + 1 :=
      ⟨source.length - body.tail.length - 1, by omega⟩
    have hend := Engine.run_of_end n
      ⟨r', [], [(⟨bytes.TrimSpace (first.drop 3)⟩,
          (body.foldl contentStep ([], none)).1.map Block.Paragraph)],
        (body.foldl contentStep ([], none)).2⟩ (Reader.lines_nil r' hr')
    simp only [Engine.parse, hn, hrun n, hend, bind, Except.bind, Engine.finalize_content]
    rfl
  refine ⟨?_, hparse, ?_, ?_⟩
  · intro line hl node reader hr
    apply Continue_of_not_marker
    rw [hr, ← marker_ascii]
    exact fun h => h2 line hl h.2
  · simp [renderDocument, walkBlocks_aside _ _ _ (walkBlocks_paragraphs htmlTemplate _),
      template.htmlEscaper_eq]
  · intro closed closing hc hb hm
    rw [hparse]
    obtain ⟨r', hr', hrun⟩ := Engine.run_opened closed first body [closing] hc h1 h2 (Or.inl hb)
    obtain ⟨hp, hne, hrem, -⟩ := Reader.lines_cons r' closing [] hr'
    have hlen := splitLines_length_le closed
    rw [hc] at hlen
    simp only [List.length_cons, List.length_append, List.length_nil] at hlen
    have htail : body.tail.length + 1 = body.length := by
      cases body with
      | nil => exact absurd rfl hb
      | cons _ _ => simp
    obtain ⟨n, hn⟩ : ∃ n, closed.length = body.tail.length + (n + 1) + 1 :=
      ⟨closed.length - body.tail.length - 2, by omega⟩
    have hstep := Engine.step_closing r' ⟨bytes.TrimSpace (first.drop 3)⟩
      (body.foldl contentStep ([], none)).1 (body.foldl contentStep ([], none)).2
      (by rw [hp]; exact marker_length closing hm) (by rw [hp, hm, marker_ascii])
      (Reader.lines_nil _ hrem)
    have hne' : ¬ r'.PeekLine = [] := by rw [hp]; exact hne
    simp only [Engine.parse, hn, hrun (n + 1), bind, Except.bind]
    rw [Engine.run]
    simp only [hne', if_false, hstep, bind, Except.bind]
    have hend := Engine.run_of_end n
      ⟨r'.AdvanceLine.AdvanceLine,
        [Block.AsideBlock ⟨bytes.TrimSpace (first.drop 3)⟩
          ((contentEnd ((body.foldl contentStep ([], none)).1,
            (body.foldl contentStep ([], none)).2)).map Block.Paragraph)], [], none⟩
      (Reader.lines_nil _ (Reader.lines_nil_advance _ hrem))
    rw [hend]
    rfl

/-- Witness of C12 on `:::Note\nHello\nWorld\n`, closed by the line `:::`. -/
theorem C12_unclosed_block_witness :
    Engine.parse (ascii ":::Note\nHello\nWorld\n")
        = .ok [Block.AsideBlock ⟨bytes.TrimSpace ((ascii ":::Note\n").drop 3)⟩
            ((contentOf [ascii "Hello\n", ascii "World\n"]).map Block.Paragraph)]
      ∧ Engine.parse (ascii ":::Note\nHello\nWorld\n:::")
        = Engine.parse (ascii ":::Note\nHello\nWorld\n") :=
  ⟨(C12_unclosed_block (ascii ":::Note\nHello\nWorld\n") (ascii ":::Note\n")
      [ascii "Hello\n", ascii "World\n"] (by decide) (by decide) (by decide)).2.1,
    (C12_unclosed_block (ascii ":::Note\nHello\nWorld\n") (ascii ":::Note\n")
      [ascii "Hello\n", ascii "World\n"] (by decide) (by decide) (by decide)).2.2.2
      (ascii ":::Note\nHello\nWorld\n:::") (ascii ":::") (by decide) (by decide) (by decide)⟩

/-- The document and the HTML of `:::Note\nHello\nWorld\n`. -/
theorem unclosed_block_example :
    contentOf [ascii "Hello\n", ascii "World\n"] = [ascii "Hello\nWorld"]
      ∧ Engine.parse (ascii ":::Note\nHello\nWorld\n")
        = .ok [Block.AsideBlock ⟨ascii "Note"⟩ [Block.Paragraph (ascii "Hello\nWorld")]]
      ∧ renderDocument htmlTemplate
          [Block.AsideBlock ⟨ascii "Note"⟩ [Block.Paragraph (ascii "Hello\nWorld")]]
        = some (ascii "<aside><h3>Note</h3><p>Hello\nWorld</p>\n</aside>") :=
  ⟨by decide, by rfl, by rfl⟩

/-! ## Theorems: the title is trimmed -/

/-- Bytes that start with a byte that begins a rune do not change the rune
decoded before them. -/
theorem DecodeRune_append_runeStart (t ws : List Nat) (ht : t ≠ [])
    (hws : ws = [] ∨ ∃ b tl, ws = b :: tl ∧ (b < 0x80 ∨ 0xC2 ≤ b)) :
    utf8.DecodeRune (t ++ ws) = utf8.DecodeRune t := by
  rcases hws with rfl | ⟨b, tl, rfl, hb⟩
  · simp
  · match t, ht with
    | p0 :: t1, _ =>
      rw [List.cons_append]
      rcases utf8.first_class p0 with ⟨h1, -⟩ | ⟨-, h1⟩
        | ⟨sz, lo, hi, -, h0, hsz, hacc, h2, h4, hlo, hhi⟩
      · rw [utf8.DecodeRune_ascii p0 _ h1, utf8.DecodeRune_ascii p0 _ h1]
      · rw [utf8.DecodeRune_xx p0 _ h1, utf8.DecodeRune_xx p0 _ h1]
      · rw [utf8.DecodeRune_lead p0 _ sz lo hi h0 hsz hacc h2 h4,
          utf8.DecodeRune_lead p0 _ sz lo hi h0 hsz hacc h2 h4]
        have hb1 : b < lo ∨ hi < b := by omega
        have hb2 : b < 0x80 ∨ 0xBF < b := by omega
        match t1 with
        | [] => simp [hb1]
        | [b1] =>
          simp only [List.cons_append, List.nil_append]
          split_ifs <;> simp
        | [b1, b2] =>
          simp only [List.cons_append, List.nil_append]
          split_ifs <;> simp
        | b1 :: b2 :: b3 :: t4 =>
          simp only [List.cons_append]

/-- White space read from the front: after the white space `ws`, the loop
goes on with what follows. -/
theorem whiteSpaceLoop_append (ws x : List Nat) (h : WhiteSpace ws) :
    ∀ fuel, whiteSpaceLoop fuel (ws ++ x) = true → ∃ fuel', whiteSpaceLoop fuel' x = true := by
  induction h with
  | nil => intro fuel hf; exact ⟨fuel, by simpa using hf⟩
  | cons c rest hc _ ih =>
    intro fuel hf
    match c, hc with
    | [], hc => exact absurd rfl (IsSpaceRune_ne_nil [] hc)
    | c0 :: ct, hc =>
      have hd := utf8.DecodeRune_append (c0 :: ct) (rest ++ x) (utf8.DecodeRune (c0 :: ct)).1
        (Prod.ext rfl hc.1) (Or.inl (IsSpace_ne_RuneError _ hc.2))
      rw [List.append_assoc] at hf
      match fuel, hf with
      | 0, hf => simp [whiteSpaceLoop] at hf
      | fuel + 1, hf =>
        simp only [List.cons_append] at hd hf
        simp only [whiteSpaceLoop, hd, hc.2, Bool.true_and] at hf
        rw [← List.cons_append, List.drop_left] at hf
        exact ih fuel hf

/-- Bytes that are white space only do not start with a rune that is not. -/
theorem whiteSpaceLoop_head (fuel : Nat) (c : Nat) (t : List Nat)
    (h : whiteSpaceLoop fuel (c :: t) = true) :
    unicode.IsSpace (utf8.DecodeRune (c :: t)).1 = true := by
  match fuel, h with
  | 0, h => simp [whiteSpaceLoop] at h
  | fuel + 1, h =>
    simp only [whiteSpaceLoop, Bool.and_eq_true] at h
    exact h.1

/-- `TrimSpace` returns the empty string exactly on white space. -/
theorem TrimSpace_eq_nil_iff (s : List Nat) : bytes.TrimSpace s = [] ↔ isWhiteSpace s = true := by
  obtain ⟨ws1, ws2, h1, h2, he⟩ := TrimSpace_decomp s
  constructor
  · intro h
    rw [h, List.append_nil] at he
    rw [he]
    exact isWhiteSpace_of_WhiteSpace _ (WhiteSpace_append _ _ h1 h2)
  · intro h
    by_contra hne
    rcases TrimSpace_ends s with h0 | ⟨hf, -⟩
    · exact hne h0
    · unfold isWhiteSpace at h
      rw [he, List.append_assoc] at h
      obtain ⟨fuel, hfuel⟩ := whiteSpaceLoop_append ws1 _ h1 _ h
      match ht : bytes.TrimSpace s, hne with
      | c :: t, _ =>
        rw [ht] at hfuel hf
        rw [List.cons_append] at hfuel
        have hsp := whiteSpaceLoop_head fuel c (t ++ ws2) hfuel
        rw [← List.cons_append,
          DecodeRune_append_runeStart (c :: t) ws2 (by simp) (WhiteSpace_head ws2 h2)] at hsp
        rw [hsp] at hf
        cases hf

theorem TrimLeftFunc_of_head (t : List Nat)
    (hf : unicode.IsSpace (utf8.DecodeRune t).1 = false) :
    bytes.TrimLeftFunc t unicode.IsSpace = t := by
  match t, hf with
  | [], _ => rfl
  | c :: rest, hf =>
    have hc : (unicode.IsSpace (utf8.DecodeRune (c :: rest)).1 == false) = true := by simp [hf]
    simp only [bytes.TrimLeftFunc, bytes.indexFunc, List.length_cons, bytes.indexFuncLoop,
      Nat.zero_lt_succ, if_true, List.getD_cons_zero, List.drop_zero, rune_at_front, hc]

theorem TrimRightFunc_of_last (t : List Nat)
    (hl : unicode.IsSpace (utf8.DecodeLastRune t).1 = false) :
    bytes.TrimRightFunc t unicode.IsSpace = t := by
  by_cases hne : t = []
  · subst hne; rfl
  · have hpos : 0 < t.length := List.length_pos.mpr hne
    obtain ⟨n, hn⟩ : ∃ n, t.length = n + 1 := ⟨t.length - 1, by omega⟩
    have hlr : lastRune t t.length = utf8.DecodeLastRune t := by
      rw [lastRune_eq t t.length hpos (Nat.le_refl _), List.take_length]
    obtain ⟨h1, h2, h3, -⟩ := lastRune_spec t t.length hpos (Nat.le_refl _)
    rw [hlr] at h1 h2 h3
    rw [List.take_length] at h3
    have hloop : bytes.lastIndexFunc t unicode.IsSpace false
        = some (t.length - (utf8.DecodeLastRune t).2) := by
      unfold bytes.lastIndexFunc
      have hgen : ∀ m, m = n + 1 → bytes.lastIndexFuncLoop t unicode.IsSpace false m t.length
          = some (t.length - (utf8.DecodeLastRune t).2) := by
        intro m hm
        subst hm
        rw [lastIndexFuncLoop_step t n t.length hpos, hlr, if_neg (by simp [hl])]
      exact hgen _ hn
    simp only [bytes.TrimRightFunc, hloop]
    have hj : t.length - (utf8.DecodeLastRune t).2 < t.length := by omega
    have hd := List.drop_eq_getElem_cons hj
    have hg : t.getD (t.length - (utf8.DecodeLastRune t).2) 0
        = t[t.length - (utf8.DecodeLastRune t).2] := List.getD_eq_getElem _ _ hj
    rw [hg]
    split_ifs with hc
    · apply List.take_of_length_le
      rcases h3 with h3 | h3
      · have := utf8.DecodeRune_width_pos t[t.length - (utf8.DecodeLastRune t).2]
          (t.drop (t.length - (utf8.DecodeLastRune t).2 + 1))
        rw [← hd] at this
        omega
      · rw [h3]
        omega
    · apply List.take_of_length_le
      rcases h3 with h3 | h3
      · omega
      · have hlt : t[t.length - (utf8.DecodeLastRune t).2] < 0x80 := by
          simp only [utf8.RuneSelf] at hc
          omega
        rw [hd, utf8.DecodeRune_ascii _ _ hlt] at h3
        have := congrArg Prod.snd h3
        simp only at this
        omega

theorem TrimFunc_of_ends (t : List Nat)
    (hf : unicode.IsSpace (utf8.DecodeRune t).1 = false)
    (hl : unicode.IsSpace (utf8.DecodeLastRune t).1 = false) :
    bytes.TrimFunc t unicode.IsSpace = t := by
  unfold bytes.TrimFunc
  rw [TrimLeftFunc_of_head t hf, TrimRightFunc_of_last t hl]

/-- `TrimSpace` leaves a string as it is when neither its first nor its last
rune is white space. -/
theorem TrimSpace_of_ends (t : List Nat)
    (hf : unicode.IsSpace (utf8.DecodeRune t).1 = false)
    (hl : unicode.IsSpace (utf8.DecodeLastRune t).1 = false) :
    bytes.TrimSpace t = t := by
  match t, hf, hl with
  | [], _, _ => rfl
  | c :: rest, hf, hl =>
    unfold bytes.TrimSpace
    split_ifs with h1 h2
    · exact TrimFunc_of_ends _ hf hl
    · exfalso
      have hlt : c < 0x80 := by simp only [utf8.RuneSelf] at h1; omega
      rw [utf8.DecodeRune_ascii c rest hlt, IsSpace_eq_asciiSpace c hlt, h2] at hf
      cases hf
    · have hlr := lastRune_eq (c :: rest) (c :: rest).length (by simp) (Nat.le_refl _)
      rw [List.take_length] at hlr
      simp only [List.length_cons, bytes.trimSpaceStop]
      split_ifs with h3 h4
      · rw [← List.length_cons c rest, List.take_length]
        exact TrimFunc_of_ends _ hf hl
      · exfalso
        have hlt : (c :: rest).getD rest.length 0 < 0x80 := by
          simp only [utf8.RuneSelf] at h3; omega
        rw [← hlr] at hl
        simp only [lastRune, List.length_cons, Nat.add_sub_cancel, h3, if_false] at hl
        rw [IsSpace_eq_asciiSpace _ hlt, h4] at hl
        cases hl
      · rw [← List.length_cons c rest, List.take_length]

/-- `TrimSpace` is idempotent. -/
theorem TrimSpace_idem (s : List Nat) : bytes.TrimSpace (bytes.TrimSpace s) = bytes.TrimSpace s := by
  rcases TrimSpace_ends s with h | ⟨hf, hl⟩
  · rw [h]; rfl
  · exact TrimSpace_of_ends _ hf hl

/-- A line has no newline before its last byte. -/
theorem takeLine_newline_last (l : List Nat) :
    ∀ pre post, takeLine l = pre ++ 0x0A :: post → post = [] := by
  induction l with
  | nil => intro pre post h; simp [takeLine] at h
  | cons c rest ih =>
    intro pre post h
    unfold takeLine at h
    split_ifs at h with hc
    · match pre, h with
      | [], h =>
        simp only [List.nil_append, List.cons.injEq] at h
        exact h.2.symm
      | _ :: pre', h =>
        simp only [List.cons_append, List.cons.injEq] at h
        have := congrArg List.length h.2
        simp only [List.length_nil, List.length_append, List.length_cons] at this
        omega
    · match pre, h with
      | [], h =>
        simp only [List.nil_append, List.cons.injEq] at h
        exact absurd h.1 hc
      | _ :: pre', h =>
        simp only [List.cons_append, List.cons.injEq] at h
        exact ih pre' post h.2

theorem DecodeLastRune_ascii_end (a : List Nat) (c : Nat) (hc : c < 0x80) :
    utf8.DecodeLastRune (a ++ [c]) = (c, 1) := by
  have h0 : ¬ (a ++ [c]).length = 0 := by simp
  have hg : (a ++ [c]).getD ((a ++ [c]).length - 1) 0 = c := by
    rw [List.getD_eq_getElem _ _ (by simp)]
    simp
  have hlt : c < utf8.RuneSelf := hc
  simp only [utf8.DecodeLastRune, h0, if_false, hg, hlt, if_true]

/-- C11: the title of every node `Open` returns is trimmed. It is empty or
neither its first nor its last rune is white space; it does not contain the
newline that ends the marker line; `TrimSpace` leaves it unchanged; and it
is empty exactly when the bytes after the marker are white space only, as
on `:::` and on `:::` followed by a newline. -/
theorem C11_title_trimmed (reader : Reader) (node : AsideBlockNode) (st : State) (r : Reader)
    (h : AsideBlockParser.Open reader = .ok (some node, st, r)) :
    (node.Title = []
        ∨ (unicode.IsSpace (utf8.DecodeRune node.Title).1 = false
          ∧ unicode.IsSpace (utf8.DecodeLastRune node.Title).1 = false))
      ∧ 0x0A ∉ node.Title
      ∧ bytes.TrimSpace node.Title = node.Title
      ∧ (node.Title = [] ↔ isWhiteSpace (reader.PeekLine.drop 3) = true) := by
  have hm : 3 ≤ reader.PeekLine.length ∧ reader.PeekLine.take 3 = AsideBlockParser.marker := by
    by_contra hn
    rw [Open_of_not_marker reader hn] at h
    cases h
  rw [Open_of_marker reader hm.1 hm.2] at h
  have ht : node.Title = bytes.TrimSpace (reader.PeekLine.drop 3) := by
    have := (Prod.mk.inj (Except.ok.inj h)).1
    rw [← Option.some.inj this]
  rw [ht]
  refine ⟨TrimSpace_ends _, ?_, TrimSpace_idem _, TrimSpace_eq_nil_iff _⟩
  intro hmem
  obtain ⟨a, b, hab⟩ := List.append_of_mem hmem
  obtain ⟨ws1, ws2, -, -, he⟩ := TrimSpace_decomp (reader.PeekLine.drop 3)
  have hline : takeLine (reader.source.drop reader.pos)
      = (reader.PeekLine.take 3 ++ ws1 ++ a) ++ 0x0A :: (b ++ ws2) := by
    have h1 : reader.PeekLine = reader.PeekLine.take 3 ++ reader.PeekLine.drop 3 :=
      (List.take_append_drop 3 _).symm
    have h2 : reader.PeekLine.drop 3 = ws1 ++ (a ++ 0x0A :: b) ++ ws2 := by
      rw [← hab]
      exact he
    show reader.PeekLine = _
    conv_lhs => rw [h1, h2]
    simp
  have hb := takeLine_newline_last _ _ _ hline
  have hb' : b = [] := (List.append_eq_nil.mp hb).1
  subst hb'
  rcases TrimSpace_ends (reader.PeekLine.drop 3) with h0 | ⟨-, hl⟩
  · rw [h0] at hab
    simp at hab
  · rw [hab, DecodeLastRune_ascii_end a 0x0A (by decide)] at hl
    revert hl
    decide

/-- Witness of C11 on the first line of `:::  Note \nHello\n:::`. -/
theorem C11_title_trimmed_witness :
    (ascii "Note" = []
        ∨ (unicode.IsSpace (utf8.DecodeRune (ascii "Note")).1 = false
          ∧ unicode.IsSpace (utf8.DecodeLastRune (ascii "Note")).1 = false))
      ∧ 0x0A ∉ ascii "Note"
      ∧ bytes.TrimSpace (ascii "Note") = ascii "Note"
      ∧ (ascii "Note" = []
          ↔ isWhiteSpace ((Reader.PeekLine ⟨ascii ":::  Note \nHello\n:::", 0⟩).drop 3) = true) :=
  C11_title_trimmed ⟨ascii ":::  Note \nHello\n:::", 0⟩ ⟨ascii "Note"⟩ parser.HasChildren
    ⟨ascii ":::  Note \nHello\n:::", 11⟩ (by decide)

/-- The titles of the bare marker lines `:::` and `:::` with a newline are
empty. -/
theorem bare_marker_title :
    AsideBlockParser.Open ⟨ascii ":::", 0⟩
        = .ok (some ⟨[]⟩, parser.HasChildren, ⟨ascii ":::", 3⟩)
      ∧ AsideBlockParser.Open ⟨ascii ":::\n", 0⟩
        = .ok (some ⟨[]⟩, parser.HasChildren, ⟨ascii ":::\n", 4⟩) :=
  ⟨by decide, by decide⟩

end Golb
